import Mathlib

/-!
Verification development for the yt-summarizer repository.

Strings are modelled as lists of characters (`Str`).  The functions below are
shallow embeddings of the Python sources:

* `pyWords`              — Python `str.split()` (split on whitespace runs, no empties)
* `pyStrip`              — Python `str.strip()`
* `splitSentences`       — `re.split(r"(?<=[.!?])\s+", text)`
* `count_tokens`         — token estimator (see its doc comment)
* `split_text_into_chunks` — `TokenCounter.split_text_into_chunks`
* `sanitize_filename`    — `yt_summarizer.utils.helpers.sanitize_filename`
* `merge_summaries`      — `SummaryGenerator.merge_summaries`
* `get_subtitles`        — `TranscriptProcessor.get_subtitles`
-/

set_option maxRecDepth 4000

abbrev Str := List Char

/-- Characters of a Lean string literal, used for concrete inputs. -/
def str (s : String) : Str := s.data

/-- ASCII whitespace as matched by Python `\s`, `str.split()` and `str.strip()`. -/
def isPyWs (c : Char) : Bool :=
  c = ' ' || c = '\t' || c = '\n' || c = '\r' || c = '\x0b' || c = '\x0c'

/-- Sentence-ending punctuation of the boundary rule `(?<=[.!?])`. -/
def isEnder (c : Char) : Bool :=
  c = '.' || c = '!' || c = '?'

/-- The word accumulated so far (reversed) is flushed at whitespace;
`wordsAux [] l` is Python `l.split()`. -/
def wordsAux (cur : Str) : Str → List Str
  | [] => if cur = [] then [] else [cur.reverse]
  | c :: cs =>
    if isPyWs c then (if cur = [] then [] else [cur.reverse]) ++ wordsAux [] cs
    else wordsAux (c :: cur) cs

/-- Python `str.split()`: split on whitespace runs, dropping empty pieces. -/
def pyWords (l : Str) : List Str := wordsAux [] l

/-- Remove the trailing run of characters satisfying `p`. -/
def dropTrailP (p : Char → Bool) : Str → Str
  | [] => []
  | c :: cs =>
    let r := dropTrailP p cs
    if r = [] ∧ p c then [] else c :: r

/-- Python `str.strip()`: drop leading and trailing whitespace. -/
def pyStrip (l : Str) : Str := dropTrailP isPyWs (l.dropWhile isPyWs)

/-- `l` contains at least one non-whitespace character. -/
def hasWordP (l : Str) : Prop := ∃ c ∈ l, isPyWs c = false

instance (l : Str) : Decidable (hasWordP l) := by
  unfold hasWordP
  infer_instance

/-- Modelled from the spec: `TokenCounter.count_tokens` delegates to the external
`tiktoken` encoder, which is not part of this repository.  §4.1 of the spec fixes
only the estimator contract ("any deterministic word/character/subword-based
estimator satisfies the design"); the repository's own test suite mocks the
encoder with exactly a word count (`test_token_counter.MockEncoding`).  We use
the word-count instantiation: the number of whitespace-separated words. -/
def count_tokens (l : Str) : Nat := (pyWords l).length

/-- The previously scanned character (head of the reversed accumulator) is a
sentence ender. -/
def headEnder : Str → Bool
  | p :: _ => isEnder p
  | [] => false

/-- `re.split(r"(?<=[.!?])\s+", text)` as a left-to-right scan.  `skip` is true
while consuming the whitespace run of a separator; `cur` holds the current
sentence reversed.  A separator starts at a whitespace character immediately
preceded by `.`, `!` or `?`. -/
def sentencesAux : Bool → Str → Str → List Str
  | _, cur, [] => [cur.reverse]
  | skip, cur, c :: cs =>
    if skip && isPyWs c then sentencesAux true cur cs
    else if isPyWs c && headEnder cur then cur.reverse :: sentencesAux true [] cs
    else sentencesAux false (c :: cur) cs

/-- Sentence split used by `split_text_into_chunks`. -/
def splitSentences (text : Str) : List Str := sentencesAux false [] text

/-- Inner word-level fallback loop of `split_text_into_chunks` (executed when a
single sentence exceeds the budget on an empty buffer).  State: emitted chunks
and the accumulating `temp_chunk`. -/
def wordFallback (M : Nat) : List Str → List Str → Str → List Str × Str
  | [], chunks, temp => (chunks, temp)
  | w :: ws, chunks, temp =>
    let test := if temp ≠ [] then temp ++ ' ' :: w else w
    if count_tokens test > M then
      if temp ≠ [] then wordFallback M ws (chunks ++ [pyStrip temp]) w
      else wordFallback M ws (chunks ++ [w]) temp
    else wordFallback M ws chunks test

/-- Outer sentence loop of `split_text_into_chunks`.  State: emitted chunks and
the accumulating `current_chunk`. -/
def sentLoop (M : Nat) : List Str → List Str → Str → List Str × Str
  | [], chunks, cur => (chunks, cur)
  | s :: ss, chunks, cur =>
    let test := if cur ≠ [] then cur ++ ' ' :: s else s
    if count_tokens test > M then
      if cur ≠ [] then sentLoop M ss (chunks ++ [pyStrip cur]) s
      else
        let st := wordFallback M (pyWords s) chunks []
        sentLoop M ss st.1 (if st.2 ≠ [] then st.2 else cur)
    else sentLoop M ss chunks test

/-- `TokenCounter.split_text_into_chunks` from
`src/yt_summarizer/utils/token_counter.py`. -/
def split_text_into_chunks (text : Str) (M : Nat) : List Str :=
  let st := sentLoop M (splitSentences text) [] []
  if st.2 ≠ [] then st.1 ++ [pyStrip st.2] else st.1

/-- Join a list of strings with single spaces. -/
def joinSpace : List Str → Str
  | [] => []
  | [c] => c
  | c :: cs => c ++ ' ' :: joinSpace cs

/-- Collapse whitespace: every maximal whitespace run becomes a single space and
the ends are trimmed (equivalently, the words joined by single spaces). -/
def collapseWs (l : Str) : Str := joinSpace (pyWords l)

/-- Words of all strings of a list, in order. -/
def wordsOfAll (l : List Str) : List Str := (l.map pyWords).flatten

/-! ### Filename sanitization (`src/yt_summarizer/utils/helpers.py`) -/

/-- The invalid filename characters removed by `re.sub(r'[<>:"/\\|?*]', '', _)`. -/
def invalidChar (c : Char) : Bool :=
  c = '<' || c = '>' || c = ':' || c = '"' || c = '/' || c = '\\' ||
    c = '|' || c = '?' || c = '*'

/-- Collapse runs of underscores to a single underscore
(`re.sub(r'_+', '_', _)`).  `prevU` records whether the previous kept
character was an underscore of a run being collapsed. -/
def collapseUndersAux : Bool → Str → Str
  | _, [] => []
  | prevU, c :: cs =>
    if c = '_' then
      (if prevU then collapseUndersAux true cs else '_' :: collapseUndersAux true cs)
    else c :: collapseUndersAux false cs

/-- `sanitize_filename` from `src/yt_summarizer/utils/helpers.py`:
remove invalid characters, replace each space with an underscore, collapse
underscore runs, strip leading/trailing underscores. -/
def sanitize_filename (l : Str) : Str :=
  let removed := l.filter (fun c => !(invalidChar c))
  let replaced := removed.map (fun c => if c = ' ' then '_' else c)
  let collapsed := collapseUndersAux false replaced
  dropTrailP (fun c => c = '_') (collapsed.dropWhile (fun c => c = '_'))

/-- Two adjacent underscores occur somewhere in the string. -/
def hasDoubleUnder : Str → Bool
  | c :: d :: rest => (c = '_' && d = '_') || hasDoubleUnder (d :: rest)
  | _ => false

/-! ### Summary merging (`src/yt_summarizer/core/summary.py`) -/

/-- Decimal digits of `n`, as Python string formatting renders it. -/
def natStr (n : Nat) : Str := Nat.toDigits 10 n

/-- The document header and metadata lines of `merge_summaries` for `n`
sections (the date is a parameter because `_get_current_date` reads the
clock). -/
def mergeHeader (title date : Str) (n : Nat) : Str :=
  str "# " ++ (if title ≠ [] then title else str "YouTube Video Summary") ++
    str "\n\n*Generated on: " ++ date ++ str "*\n*Total sections: " ++
    natStr n ++ str "*\n\n"

/-- One table-of-contents line, `- [Part i](#part-i)`. -/
def tocLine (i : Nat) : Str :=
  str "- [Part " ++ natStr i ++ str "](#part-" ++ natStr i ++ str ")\n"

/-- The table-of-contents lines for parts `1..n`, one per summary. -/
def tocLines (n : Nat) : List Str := (List.range n).map (fun i => tocLine (i + 1))

/-- The table-of-contents section emitted when more than one summary exists. -/
def tocSection (n : Nat) : Str :=
  str "## Table of Contents\n\n" ++ (tocLines n).flatten ++ str "\n---\n\n"

/-- The body loop of `merge_summaries`: each summary, preceded by a
`## Part i` header when there are several sections, followed by a separator
between consecutive sections. -/
def mergeBody (n : Nat) : Nat → List Str → Str
  | _, [] => []
  | i, s :: rest =>
    (if n > 1 then str "## Part " ++ natStr i ++ str "\n\n" else []) ++
      s ++ str "\n\n" ++ (if i < n then str "---\n\n" else []) ++
      mergeBody n (i + 1) rest

/-- `SummaryGenerator.merge_summaries` from `src/yt_summarizer/core/summary.py`. -/
def merge_summaries (summaries : List Str) (video_title date : Str) : Str :=
  mergeHeader video_title date summaries.length ++
    (if summaries.length > 1 then tocSection summaries.length else []) ++
    mergeBody summaries.length 1 summaries

/-! ### Occurrence counting, used to state the merge-format claims -/

/-- `p` is a prefix of `l` (boolean). -/
def isPre : Str → Str → Bool
  | [], _ => true
  | _ :: _, [] => false
  | a :: as_, b :: bs => a = b && isPre as_ bs

/-- Number of positions of `l` at which the pattern `p` occurs. -/
def countOccur (p : Str) : Str → Nat
  | [] => if isPre p [] then 1 else 0
  | c :: cs => (if isPre p (c :: cs) then 1 else 0) + countOccur p cs

/-! ### Transcript selection (`src/yt_summarizer/core/transcript.py`)

The external transcript service (youtube-transcript-api) is the collaborator
of spec §6: it lists `TranscriptTrack` records and each track's `fetch()`
returns caption entries or raises.  A lookup or fetch that raises is modelled
as `none`; the source's `try/except` blocks that swallow those exceptions
appear below as `Option` plumbing placed exactly where the `try` blocks are. -/

/-- A transcript track as listed by the external service: language code,
generated/manual origin, and the fetch capability (`none` models a fetch that
raises; `some texts` the caption entry texts). -/
structure Track where
  language_code : Str
  is_generated : Bool
  fetchResult : Option (List Str)
deriving DecidableEq

/-- The processing settings consumed by `get_subtitles`
(`src/yt_summarizer/config/settings.py`). -/
structure ProcSettings where
  language_priority : List Str
  prefer_manual_transcripts : Bool

/-- The single error type raised by `get_subtitles`. -/
structure TranscriptError where
  msg : Str
deriving DecidableEq

/-- Replace each maximal run of characters satisfying `p` by a single space
(`re.sub`, with `inRun` tracking a run in progress). -/
def replaceRunsAux (p : Char → Bool) : Bool → Str → Str
  | _, [] => []
  | inRun, c :: cs =>
    if p c then (if inRun then replaceRunsAux p true cs else ' ' :: replaceRunsAux p true cs)
    else c :: replaceRunsAux p false cs

/-- Join strings with newlines (the `TextFormatter` joins caption texts). -/
def joinNl : List Str → Str
  | [] => []
  | [c] => c
  | c :: cs => c ++ '\n' :: joinNl cs

/-- `TranscriptProcessor._format_transcript`: format the caption entries, then
collapse newline runs, collapse whitespace runs, and strip. -/
def format_transcript (entries : List Str) : Str :=
  pyStrip (replaceRunsAux isPyWs false
    (replaceRunsAux (fun c => c = '\n') false (joinNl entries)))

/-- `TranscriptList.find_transcript` of the external API: first a manually
created track with the language, then a generated one. -/
def find_transcript (tracks : List Track) (lang : Str) : Option Track :=
  (tracks.find? (fun t => t.language_code == lang && !t.is_generated)) <|>
    (tracks.find? (fun t => t.language_code == lang && t.is_generated))

/-- `TranscriptList.find_generated_transcript` of the external API. -/
def find_generated_transcript (tracks : List Track) (lang : Str) : Option Track :=
  tracks.find? (fun t => t.language_code == lang && t.is_generated)

/-- Priority 1 of `get_subtitles`: for each priority language, look the track
up; if the prefer-manual flag is set and the track is manual, fetch it.  Any
lookup/fetch failure inside the per-language `try` gives `none` (swallowed),
advancing to the next language. -/
def tierA (cfg : ProcSettings) (tracks : List Track) : Option Str :=
  cfg.language_priority.findSome? fun lang =>
    (find_transcript tracks lang).bind fun t =>
      if cfg.prefer_manual_transcripts && !t.is_generated then
        t.fetchResult.map format_transcript
      else none

/-- Priority 2 of `get_subtitles`: for each priority language, look up a
generated track and fetch it; failures are swallowed per language. -/
def tierB (cfg : ProcSettings) (tracks : List Track) : Option Str :=
  cfg.language_priority.findSome? fun lang =>
    (find_generated_transcript tracks lang).bind fun t =>
      t.fetchResult.map format_transcript

/-- Priority 3 of `get_subtitles`: scan the listed tracks in order and fetch
the first generated one.  The `try` wraps the whole scan, so a fetch failure
of that first generated track abandons the tier. -/
def tierC (tracks : List Track) : Option Str :=
  (tracks.find? (fun t => t.is_generated)).bind fun t =>
    t.fetchResult.map format_transcript

/-- `TranscriptProcessor.get_subtitles`.  `listing` is the result of
`ytt_api.list(video_id)` (`Except.error msg` models the listing call raising
with message `msg`, which the outer handler wraps into a `TranscriptError`). -/
def get_subtitles (cfg : ProcSettings) (listing : Except Str (List Track)) :
    Except TranscriptError Str :=
  match listing with
  | .error e => .error ⟨str "Error getting subtitles: " ++ e⟩
  | .ok tracks =>
    match tierA cfg tracks with
    | some txt => .ok txt
    | none =>
      match tierB cfg tracks with
      | some txt => .ok txt
      | none =>
        match tierC tracks with
        | some txt => .ok txt
        | none => .error ⟨str "No suitable subtitles found"⟩

/-! ### Per-chunk summarization (`core/summary.py` and the legacy
`youtube_summarizer_openai.py`) -/

/-- The error type raised by the package's `summarize_chunk`. -/
structure ProviderError where
  msg : Str
deriving DecidableEq

/-- The literal text `Error summarizing chunk {i} with {provider}: {e}` built
by both implementations on a failed provider call. -/
def errorPlaceholder (provider : Str) (i : Nat) (e : Str) : Str :=
  str "Error summarizing chunk " ++ natStr i ++ str " with " ++ provider ++
    str ": " ++ e

/-- `summarize_chunk` of `src/yt_summarizer/core/summary.py`: on success the
stripped completion, on a provider failure a raised `ProviderError` carrying
the error text.  `api` models the external chat-completion call. -/
def summarize_chunk (api : Str → Nat → Nat → Except Str Str) (provider : Str)
    (chunk : Str) (i total : Nat) : Except ProviderError Str :=
  match api chunk i total with
  | .ok s => .ok (pyStrip s)
  | .error e => .error ⟨errorPlaceholder provider i e⟩

/-- `summarize_chunk` of the legacy `src/youtube_summarizer_openai.py`: on a
provider failure it returns the error text as the chunk's summary instead of
raising. -/
def legacy_summarize_chunk (api : Str → Nat → Nat → Except Str Str)
    (provider : Str) (chunk : Str) (i total : Nat) : Str :=
  match api chunk i total with
  | .ok s => pyStrip s
  | .error e => errorPlaceholder provider i e

/-- The per-chunk loop of the legacy `process_video`: every chunk yields a
summary (placeholder text on failure) and processing continues. -/
def legacy_summaries (api : Str → Nat → Nat → Except Str Str) (provider : Str)
    (total : Nat) : Nat → List Str → List Str
  | _, [] => []
  | i, c :: cs =>
    legacy_summarize_chunk api provider c i total ::
      legacy_summaries api provider total (i + 1) cs

/-- The per-chunk loop of `YouTubeSubtitleSummarizer.process_video`
(`src/yt_summarizer/core/summarizer.py`): the first `ProviderError` aborts
the loop. -/
def pipeline_summaries (api : Str → Nat → Nat → Except Str Str) (provider : Str)
    (total : Nat) : Nat → List Str → Except ProviderError (List Str)
  | _, [] => .ok []
  | i, c :: cs =>
    match summarize_chunk api provider c i total with
    | .error e => .error e
    | .ok s =>
      match pipeline_summaries api provider total (i + 1) cs with
      | .error e => .error e
      | .ok rest => .ok (s :: rest)

/-- The summarize-and-merge tail of `process_video` in the current package: a
chunk failure propagates, wrapped by the outer handler into
`VideoProcessingError("Failed to process video: ...")`, and no document is
produced. -/
def process_video_merge (api : Str → Nat → Nat → Except Str Str)
    (provider : Str) (chunks : List Str) (title date : Str) : Except Str Str :=
  match pipeline_summaries api provider chunks.length 1 chunks with
  | .error e => .error (str "Failed to process video: " ++ e.msg)
  | .ok ss => .ok (merge_summaries ss title date)

/-- The summarize-and-merge tail of the legacy `process_video`: always a
document. -/
def legacy_video_merge (api : Str → Nat → Nat → Except Str Str)
    (provider : Str) (chunks : List Str) (title date : Str) : Str :=
  merge_summaries (legacy_summaries api provider chunks.length 1 chunks)
    title date

/-! ## Lemmas about words, stripping and token counts -/

theorem wordsAux_append_ws (a : Str) {c : Char} (b : Str) (h : isPyWs c = true) :
    ∀ cur, wordsAux cur (a ++ c :: b) = wordsAux cur a ++ wordsAux [] b := by
  induction a with
  | nil => intro cur; simp [wordsAux, h]
  | cons d a' ih =>
    intro cur
    by_cases hd : isPyWs d = true
    · simp [wordsAux, hd, ih, List.append_assoc]
    · simp [wordsAux, hd, ih]

theorem pyWords_nil : pyWords ([] : Str) = [] := rfl

theorem pyWords_append_ws (a : Str) {c : Char} (b : Str) (h : isPyWs c = true) :
    pyWords (a ++ c :: b) = pyWords a ++ pyWords b :=
  wordsAux_append_ws a b h []

theorem pyWords_cons_ws {c : Char} (l : Str) (h : isPyWs c = true) :
    pyWords (c :: l) = pyWords l := by
  simp [pyWords, wordsAux, h]

theorem pyWords_append_ws_nil (l : Str) {c : Char} (h : isPyWs c = true) :
    pyWords (l ++ [c]) = pyWords l := by
  have := pyWords_append_ws l ([] : Str) h
  simpa [pyWords, wordsAux] using this

theorem wordsAux_wsFree {w : Str} (hw : ∀ c ∈ w, isPyWs c = false) :
    ∀ cur, cur ≠ [] ∨ w ≠ [] → wordsAux cur w = [cur.reverse ++ w] := by
  induction w with
  | nil =>
    intro cur hne
    have : cur ≠ [] := hne.resolve_right (by simp)
    simp [wordsAux, this]
  | cons c w' ih =>
    intro cur _
    have hc : isPyWs c = false := hw c (by simp)
    have hw' : ∀ d ∈ w', isPyWs d = false := fun d hd => hw d (by simp [hd])
    have := ih hw' (c :: cur) (Or.inl (by simp))
    simp [wordsAux, hc, this]

theorem pyWords_word {w : Str} (hne : w ≠ []) (hw : ∀ c ∈ w, isPyWs c = false) :
    pyWords w = [w] := by
  simpa [pyWords] using wordsAux_wsFree hw [] (Or.inr hne)

theorem mem_wordsAux {w : Str} :
    ∀ (l cur : Str), (∀ c ∈ cur, isPyWs c = false) → w ∈ wordsAux cur l →
      w ≠ [] ∧ ∀ c ∈ w, isPyWs c = false := by
  intro l
  induction l with
  | nil =>
    intro cur hcur hw
    simp only [wordsAux] at hw
    split at hw
    · simp at hw
    · rename_i hne
      simp only [List.mem_singleton] at hw
      subst hw
      refine ⟨by simpa using hne, ?_⟩
      intro c hc
      exact hcur c (List.mem_reverse.mp hc)
  | cons c cs ih =>
    intro cur hcur hw
    by_cases hc : isPyWs c = true
    · simp only [wordsAux, hc, if_true] at hw
      rcases List.mem_append.mp hw with h | h
      · split at h
        · simp at h
        · rename_i hne
          simp only [List.mem_singleton] at h
          subst h
          refine ⟨by simpa using hne, ?_⟩
          intro d hd
          exact hcur d (List.mem_reverse.mp hd)
      · exact ih [] (by simp) h
    · simp only [wordsAux, hc, if_false] at hw
      refine ih (c :: cur) ?_ hw
      intro d hd
      rcases List.mem_cons.mp hd with h | h
      · subst h; simpa using hc
      · exact hcur d h

theorem mem_pyWords {w l : Str} (hw : w ∈ pyWords l) :
    w ≠ [] ∧ ∀ c ∈ w, isPyWs c = false :=
  mem_wordsAux l [] (by simp) hw

theorem wordsAux_ne_nil_of_cur (cur l : Str) (hc : cur ≠ []) :
    wordsAux cur l ≠ [] := by
  induction l generalizing cur with
  | nil => simp [wordsAux, hc]
  | cons c cs ih =>
    by_cases h : isPyWs c = true
    · simp [wordsAux, h, hc]
    · simpa [wordsAux, h] using ih (c :: cur) (by simp)

theorem pyWords_ne_nil_of_hasWord {l : Str} (h : hasWordP l) : pyWords l ≠ [] := by
  obtain ⟨c, hc, hws⟩ := h
  obtain ⟨a, b, rfl⟩ := List.append_of_mem hc
  induction a with
  | nil =>
    simpa [pyWords, wordsAux, hws] using wordsAux_ne_nil_of_cur [c] b (by simp)
  | cons d a' ih =>
    by_cases hd : isPyWs d = true
    · simpa [pyWords, wordsAux, hd] using ih (by simp [hc])
    · exact fun hcon => wordsAux_ne_nil_of_cur [d] (a' ++ c :: b)
        (by simp) (by simpa [pyWords, wordsAux, hd] using hcon)

theorem hasWord_of_pyWords_ne_nil {l : Str} (h : pyWords l ≠ []) : hasWordP l := by
  induction l with
  | nil => simp [pyWords, wordsAux] at h
  | cons c cs ih =>
    by_cases hc : isPyWs c = true
    · obtain ⟨d, hd, hdw⟩ := ih (by simpa [pyWords_cons_ws cs hc] using h)
      exact ⟨d, by simp [hd], hdw⟩
    · exact ⟨c, by simp, by simpa using hc⟩

theorem wordsAux_dropTrailWs :
    ∀ (l : Str) (cur : Str), wordsAux cur (dropTrailP isPyWs l) = wordsAux cur l := by
  intro l
  induction l with
  | nil => intro cur; rfl
  | cons c cs ih =>
    intro cur
    simp only [dropTrailP]
    by_cases hr : dropTrailP isPyWs cs = [] ∧ isPyWs c = true
    · rw [if_pos hr]
      obtain ⟨hr1, hc⟩ := hr
      have h2 : wordsAux ([] : Str) cs = [] := by
        have h := ih ([] : Str)
        rw [hr1] at h
        simpa [wordsAux] using h.symm
      simp [wordsAux, hc, h2]
    · rw [if_neg hr]
      by_cases hc : isPyWs c = true
      · simp [wordsAux, hc, ih]
      · simp [wordsAux, hc, ih]

theorem pyWords_dropWhileWs (l : Str) : pyWords (l.dropWhile isPyWs) = pyWords l := by
  induction l with
  | nil => rfl
  | cons c cs ih =>
    by_cases hc : isPyWs c = true
    · simpa [List.dropWhile_cons, hc, pyWords_cons_ws cs hc] using ih
    · simp [List.dropWhile_cons, hc]

theorem pyWords_pyStrip (l : Str) : pyWords (pyStrip l) = pyWords l := by
  unfold pyStrip
  rw [show pyWords (dropTrailP isPyWs (l.dropWhile isPyWs)) =
        pyWords (l.dropWhile isPyWs) from
      wordsAux_dropTrailWs (l.dropWhile isPyWs) [],
    pyWords_dropWhileWs]

theorem count_tokens_append_space (a b : Str) :
    count_tokens (a ++ ' ' :: b) = count_tokens a + count_tokens b := by
  have h : isPyWs ' ' = true := by decide
  simp [count_tokens, pyWords_append_ws a b h]

theorem count_tokens_pyStrip (l : Str) : count_tokens (pyStrip l) = count_tokens l := by
  simp [count_tokens, pyWords_pyStrip]

theorem count_tokens_word {w : Str} (hne : w ≠ [])
    (hw : ∀ c ∈ w, isPyWs c = false) : count_tokens w = 1 := by
  simp [count_tokens, pyWords_word hne hw]

theorem pyStrip_ne_nil {l : Str} (h : hasWordP l) : pyStrip l ≠ [] := by
  intro hcon
  have := pyWords_ne_nil_of_hasWord h
  rw [← pyWords_pyStrip, hcon] at this
  exact this rfl

theorem hasWordP_pyStrip {l : Str} (h : hasWordP l) : hasWordP (pyStrip l) := by
  apply hasWord_of_pyWords_ne_nil
  rw [pyWords_pyStrip]
  exact pyWords_ne_nil_of_hasWord h

theorem hasWordP_append_left {a : Str} (b : Str) (h : hasWordP a) :
    hasWordP (a ++ b) := by
  obtain ⟨c, hc, hw⟩ := h
  exact ⟨c, List.mem_append.mpr (Or.inl hc), hw⟩

theorem hasWordP_append_right (a : Str) {b : Str} (h : hasWordP b) :
    hasWordP (a ++ b) := by
  obtain ⟨c, hc, hw⟩ := h
  exact ⟨c, List.mem_append.mpr (Or.inr hc), hw⟩

/-! ## Lemmas about the sentence split -/

theorem ender_not_ws {c : Char} (h : isEnder c = true) : isPyWs c = false := by
  simp only [isEnder, Bool.or_eq_true, decide_eq_true_eq] at h
  rcases h with (h | h) | h <;> subst h <;> decide

theorem wordsOfAll_cons (s : Str) (rest : List Str) :
    wordsOfAll (s :: rest) = pyWords s ++ wordsOfAll rest := by
  simp [wordsOfAll]

theorem wordsOfAll_sentencesAux :
    ∀ (l : Str) (skip : Bool) (cur : Str), (skip = true → cur = []) →
      wordsOfAll (sentencesAux skip cur l) = pyWords (cur.reverse ++ l) := by
  intro l
  induction l with
  | nil =>
    intro skip cur _
    simp [sentencesAux, wordsOfAll]
  | cons c cs ih =>
    intro skip cur hsk
    by_cases hA : (skip && isPyWs c) = true
    · obtain ⟨hskip, hc⟩ := Bool.and_eq_true_iff.mp hA
      have hcur : cur = [] := hsk hskip
      subst hcur
      simp only [sentencesAux]
      rw [hA, if_pos rfl, ih true [] (fun _ => rfl)]
      simp [pyWords_cons_ws cs hc]
    · have hA' : (skip && isPyWs c) = false := by simpa using hA
      by_cases hB : (isPyWs c && headEnder cur) = true
      · obtain ⟨hc, _⟩ := Bool.and_eq_true_iff.mp hB
        simp only [sentencesAux]
        rw [hA', if_neg Bool.false_ne_true, hB, if_pos rfl,
          wordsOfAll_cons, ih true [] (fun _ => rfl)]
        simp [pyWords_append_ws cur.reverse cs hc]
      · have hB' : (isPyWs c && headEnder cur) = false := by simpa using hB
        simp only [sentencesAux]
        rw [hA', if_neg Bool.false_ne_true, hB', if_neg Bool.false_ne_true,
          ih false (c :: cur) (by simp)]
        simp [List.append_assoc]

theorem wordsOfAll_splitSentences (text : Str) :
    wordsOfAll (splitSentences text) = pyWords text := by
  simpa using wordsOfAll_sentencesAux text false [] (by simp)

theorem sentencesAux_shape :
    ∀ (l : Str) (skip : Bool) (cur : Str), (skip = true → cur = []) →
      (hasWordP cur ∨ hasWordP l ∨
        (cur = [] ∧ (skip = true ∨ l = [] ∨
          ∀ c, l.head? = some c → isPyWs c = false))) →
      ∀ s ∈ sentencesAux skip cur l, s = [] ∨ hasWordP s := by
  intro l
  induction l with
  | nil =>
    intro skip cur _ hW s hs
    simp only [sentencesAux, List.mem_singleton] at hs
    subst hs
    rcases hW with h | h | h
    · right
      obtain ⟨d, hd, hw⟩ := h
      exact ⟨d, List.mem_reverse.mpr hd, hw⟩
    · obtain ⟨d, hd, _⟩ := h
      simp at hd
    · left; simp [h.1]
  | cons c cs ih =>
    intro skip cur hsk hW s hs
    by_cases hA : (skip && isPyWs c) = true
    · obtain ⟨hskip, _⟩ := Bool.and_eq_true_iff.mp hA
      have hcur : cur = [] := hsk hskip
      subst hcur
      simp only [sentencesAux] at hs
      rw [hA, if_pos rfl] at hs
      exact ih true [] (fun _ => rfl)
        (Or.inr (Or.inr ⟨rfl, Or.inl rfl⟩)) s hs
    · have hA' : (skip && isPyWs c) = false := by simpa using hA
      by_cases hB : (isPyWs c && headEnder cur) = true
      · obtain ⟨hc, hender⟩ := Bool.and_eq_true_iff.mp hB
        simp only [sentencesAux] at hs
        rw [hA', if_neg Bool.false_ne_true, hB, if_pos rfl] at hs
        rcases List.mem_cons.mp hs with hs | hs
        · subst hs
          right
          match cur, hender with
          | p :: rest, hender =>
            simp only [headEnder] at hender
            exact ⟨p, by simp, ender_not_ws hender⟩
        · exact ih true [] (fun _ => rfl)
            (Or.inr (Or.inr ⟨rfl, Or.inl rfl⟩)) s hs
      · have hB' : (isPyWs c && headEnder cur) = false := by simpa using hB
        simp only [sentencesAux] at hs
        rw [hA', if_neg Bool.false_ne_true, hB', if_neg Bool.false_ne_true] at hs
        refine ih false (c :: cur) (by simp) ?_ s hs
        by_cases hc : isPyWs c = true
        · have hskip : skip = false := by
            cases skip
            · rfl
            · exfalso; exact hA (by simp [hc])
          rcases hW with h | h | h
          · exact Or.inl (by
              obtain ⟨d, hd, hw⟩ := h
              exact ⟨d, by simp [hd], hw⟩)
          · obtain ⟨d, hd, hw⟩ := h
            rcases List.mem_cons.mp hd with rfl | hd'
            · rw [hw] at hc; exact absurd hc (by simp)
            · exact Or.inr (Or.inl ⟨d, hd', hw⟩)
          · obtain ⟨_, h2⟩ := h
            rcases h2 with h2 | h2 | h2
            · rw [hskip] at h2; exact absurd h2 (by simp)
            · simp at h2
            · have := h2 c (by simp)
              rw [this] at hc; exact absurd hc (by simp)
        · exact Or.inl ⟨c, by simp, by simpa using hc⟩

theorem splitSentences_shape {text : Str} (h : hasWordP text) :
    ∀ s ∈ splitSentences text, s = [] ∨ hasWordP s :=
  sentencesAux_shape text false [] (by simp) (Or.inr (Or.inl h))

theorem sentencesAux_ne_nil : ∀ (l : Str) (skip : Bool) (cur : Str),
    sentencesAux skip cur l ≠ [] := by
  intro l
  induction l with
  | nil => intro skip cur; simp [sentencesAux]
  | cons c cs ih =>
    intro skip cur
    simp only [sentencesAux]
    split
    · exact ih true cur
    · split
      · simp
      · exact ih false (c :: cur)

theorem sentencesAux_head_ne_nil :
    ∀ (l : Str) (cur : Str), cur ≠ [] ∨ l ≠ [] →
      ∃ s rest, sentencesAux false cur l = s :: rest ∧ s ≠ [] := by
  intro l
  induction l with
  | nil =>
    intro cur h
    have hcur : cur ≠ [] := h.resolve_right (by simp)
    exact ⟨cur.reverse, [], by simp [sentencesAux], by simpa using hcur⟩
  | cons c cs ih =>
    intro cur _
    by_cases hB : (isPyWs c && headEnder cur) = true
    · obtain ⟨_, hender⟩ := Bool.and_eq_true_iff.mp hB
      refine ⟨cur.reverse, sentencesAux true [] cs, ?_, ?_⟩
      · simp only [sentencesAux]
        rw [show (false && isPyWs c) = false by simp, if_neg Bool.false_ne_true,
          hB, if_pos rfl]
      · match cur, hender with
        | p :: rest, _ => simp
    · have hB' : (isPyWs c && headEnder cur) = false := by simpa using hB
      obtain ⟨s, rest, heq, hne⟩ := ih (c :: cur) (Or.inl (by simp))
      refine ⟨s, rest, ?_, hne⟩
      simp only [sentencesAux]
      rw [show (false && isPyWs c) = false by simp, if_neg Bool.false_ne_true,
        hB', if_neg Bool.false_ne_true, heq]

/-! ## Equation lemmas for the chunker loops -/

theorem wordFallback_cons_flush {M : Nat} {w temp : Str} {ws_ chunks : List Str}
    (ht : temp ≠ []) (hc : count_tokens (temp ++ ' ' :: w) > M) :
    wordFallback M (w :: ws_) chunks temp =
      wordFallback M ws_ (chunks ++ [pyStrip temp]) w := by
  simp [wordFallback, ht, hc]

theorem wordFallback_cons_over_nil {M : Nat} {w : Str} {ws_ chunks : List Str}
    (hc : count_tokens w > M) :
    wordFallback M (w :: ws_) chunks [] = wordFallback M ws_ (chunks ++ [w]) [] := by
  simp [wordFallback, hc]

theorem wordFallback_cons_acc {M : Nat} {w temp : Str} {ws_ chunks : List Str}
    (ht : temp ≠ []) (hc : ¬ count_tokens (temp ++ ' ' :: w) > M) :
    wordFallback M (w :: ws_) chunks temp =
      wordFallback M ws_ chunks (temp ++ ' ' :: w) := by
  simp [wordFallback, ht, hc]

theorem wordFallback_cons_acc_nil {M : Nat} {w : Str} {ws_ chunks : List Str}
    (hc : ¬ count_tokens w > M) :
    wordFallback M (w :: ws_) chunks [] = wordFallback M ws_ chunks w := by
  simp [wordFallback, hc]

theorem sentLoop_cons_flush {M : Nat} {s cur : Str} {ss chunks : List Str}
    (hcur : cur ≠ []) (hc : count_tokens (cur ++ ' ' :: s) > M) :
    sentLoop M (s :: ss) chunks cur =
      sentLoop M ss (chunks ++ [pyStrip cur]) s := by
  simp [sentLoop, hcur, hc]

theorem sentLoop_cons_acc {M : Nat} {s cur : Str} {ss chunks : List Str}
    (hcur : cur ≠ []) (hc : ¬ count_tokens (cur ++ ' ' :: s) > M) :
    sentLoop M (s :: ss) chunks cur = sentLoop M ss chunks (cur ++ ' ' :: s) := by
  simp [sentLoop, hcur, hc]

theorem sentLoop_cons_fallback {M : Nat} {s : Str} {ss chunks : List Str}
    (hc : count_tokens s > M) :
    sentLoop M (s :: ss) chunks [] =
      sentLoop M ss (wordFallback M (pyWords s) chunks []).1
        (wordFallback M (pyWords s) chunks []).2 := by
  have hsel : (if (wordFallback M (pyWords s) chunks []).2 ≠ [] then
      (wordFallback M (pyWords s) chunks []).2 else ([] : Str)) =
      (wordFallback M (pyWords s) chunks []).2 := by
    by_cases h : (wordFallback M (pyWords s) chunks []).2 = [] <;> simp [h]
  simp [sentLoop, hc, hsel]

theorem sentLoop_cons_acc_nil {M : Nat} {s : Str} {ss chunks : List Str}
    (hc : ¬ count_tokens s > M) :
    sentLoop M (s :: ss) chunks [] = sentLoop M ss chunks s := by
  simp [sentLoop, hc]

theorem wordsOfAll_append (a b : List Str) :
    wordsOfAll (a ++ b) = wordsOfAll a ++ wordsOfAll b := by
  simp [wordsOfAll]

theorem wordsOfAll_singleton (x : Str) : wordsOfAll [x] = pyWords x := by
  simp [wordsOfAll]

/-! ## Word preservation through the chunker (the C4 invariant) -/

theorem wordFallback_words (M : Nat) :
    ∀ (ws_ chunks : List Str) (temp : Str),
      (∀ w ∈ ws_, w ≠ [] ∧ ∀ c ∈ w, isPyWs c = false) →
      wordsOfAll (wordFallback M ws_ chunks temp).1 ++
          pyWords (wordFallback M ws_ chunks temp).2 =
        wordsOfAll chunks ++ pyWords temp ++ ws_ := by
  intro ws_
  induction ws_ with
  | nil => intro chunks temp _; simp [wordFallback]
  | cons w ws' ih =>
    intro chunks temp hall
    obtain ⟨hwne, hwf⟩ := hall w (by simp)
    have hall' : ∀ w ∈ ws', w ≠ [] ∧ ∀ c ∈ w, isPyWs c = false :=
      fun v hv => hall v (by simp [hv])
    have hpw : pyWords w = [w] := pyWords_word hwne hwf
    by_cases ht : temp = []
    · subst ht
      by_cases hc : count_tokens w > M
      · rw [wordFallback_cons_over_nil hc, ih (chunks ++ [w]) [] hall']
        simp [wordsOfAll_append, wordsOfAll_singleton, hpw, pyWords_nil]
      · rw [wordFallback_cons_acc_nil hc, ih chunks w hall']
        simp [hpw, pyWords_nil]
    · have htest : pyWords (temp ++ ' ' :: w) = pyWords temp ++ [w] := by
        rw [pyWords_append_ws temp w (by decide), hpw]
      by_cases hc : count_tokens (temp ++ ' ' :: w) > M
      · rw [wordFallback_cons_flush ht hc, ih (chunks ++ [pyStrip temp]) w hall']
        simp [wordsOfAll_append, wordsOfAll_singleton, pyWords_pyStrip, hpw]
      · rw [wordFallback_cons_acc ht hc, ih chunks (temp ++ ' ' :: w) hall']
        simp [htest]

theorem sentLoop_words (M : Nat) :
    ∀ (sents chunks : List Str) (cur : Str),
      wordsOfAll (sentLoop M sents chunks cur).1 ++
          pyWords (sentLoop M sents chunks cur).2 =
        wordsOfAll chunks ++ pyWords cur ++ wordsOfAll sents := by
  intro sents
  induction sents with
  | nil => intro chunks cur; simp [sentLoop, wordsOfAll]
  | cons s ss ih =>
    intro chunks cur
    rw [wordsOfAll_cons]
    by_cases hcur : cur = []
    · subst hcur
      by_cases hc : count_tokens s > M
      · rw [sentLoop_cons_fallback hc,
          ih (wordFallback M (pyWords s) chunks []).1
            (wordFallback M (pyWords s) chunks []).2]
        have hfb := wordFallback_words M (pyWords s) chunks []
          (fun w hw => mem_pyWords hw)
        have hkey : wordsOfAll (wordFallback M (pyWords s) chunks []).1 ++
            pyWords (wordFallback M (pyWords s) chunks []).2 =
            wordsOfAll chunks ++ pyWords s := by simpa [pyWords_nil] using hfb
        rw [hkey]
        simp [pyWords_nil, List.append_assoc]
      · rw [sentLoop_cons_acc_nil hc, ih chunks s]
        simp [pyWords_nil, List.append_assoc]
    · by_cases hc : count_tokens (cur ++ ' ' :: s) > M
      · rw [sentLoop_cons_flush hcur hc, ih (chunks ++ [pyStrip cur]) s]
        simp [wordsOfAll_append, wordsOfAll_singleton, pyWords_pyStrip,
          List.append_assoc]
      · rw [sentLoop_cons_acc hcur hc, ih chunks (cur ++ ' ' :: s)]
        rw [pyWords_append_ws cur s (by decide)]
        simp [List.append_assoc]

theorem split_text_into_chunks_words (text : Str) (M : Nat) :
    wordsOfAll (split_text_into_chunks text M) = pyWords text := by
  have h := sentLoop_words M (splitSentences text) [] []
  rw [wordsOfAll_splitSentences] at h
  unfold split_text_into_chunks
  by_cases h2 : (sentLoop M (splitSentences text) [] []).2 = []
  · rw [if_neg (by simpa using h2)]
    simpa [h2, pyWords_nil, wordsOfAll] using h
  · rw [if_pos (by simpa using h2)]
    rw [wordsOfAll_append, wordsOfAll_singleton, pyWords_pyStrip]
    simpa [pyWords_nil, wordsOfAll] using h

/-! ## Chunk shape: non-emptiness and the budget bound (the C2 invariant) -/

theorem hasWordP_of_word {w : Str} (hne : w ≠ [])
    (hw : ∀ c ∈ w, isPyWs c = false) : hasWordP w := by
  match w, hne with
  | d :: rest, _ => exact ⟨d, by simp, hw d (by simp)⟩

theorem wordFallback_shape (M : Nat) (hM : 1 ≤ M) :
    ∀ (ws_ chunks : List Str) (temp : Str),
      (∀ w ∈ ws_, w ≠ [] ∧ ∀ c ∈ w, isPyWs c = false) →
      (temp = [] ∨ (hasWordP temp ∧ count_tokens temp ≤ M)) →
      (∀ c ∈ (wordFallback M ws_ chunks temp).1,
        c ∈ chunks ∨ (hasWordP c ∧ count_tokens c ≤ M)) ∧
      ((wordFallback M ws_ chunks temp).2 = [] ∨
        (hasWordP (wordFallback M ws_ chunks temp).2 ∧
          count_tokens (wordFallback M ws_ chunks temp).2 ≤ M)) := by
  intro ws_
  induction ws_ with
  | nil =>
    intro chunks temp _ htemp
    exact ⟨fun c hc => Or.inl hc, htemp⟩
  | cons w ws' ih =>
    intro chunks temp hall htemp
    obtain ⟨hwne, hwf⟩ := hall w (by simp)
    have hall' : ∀ w ∈ ws', w ≠ [] ∧ ∀ c ∈ w, isPyWs c = false :=
      fun v hv => hall v (by simp [hv])
    have hw1 : count_tokens w = 1 := count_tokens_word hwne hwf
    have hwword : hasWordP w := hasWordP_of_word hwne hwf
    by_cases ht : temp = []
    · subst ht
      by_cases hc : count_tokens w > M
      · omega
      · rw [wordFallback_cons_acc_nil hc]
        exact ih chunks w hall' (Or.inr ⟨hwword, by omega⟩)
    · rcases htemp with h | ⟨htw, htc⟩
      · exact absurd h ht
      by_cases hc : count_tokens (temp ++ ' ' :: w) > M
      · rw [wordFallback_cons_flush ht hc]
        have := ih (chunks ++ [pyStrip temp]) w hall' (Or.inr ⟨hwword, by omega⟩)
        refine ⟨fun c hc2 => ?_, this.2⟩
        rcases this.1 c hc2 with hmem | hgood
        · rcases List.mem_append.mp hmem with hmem | hmem
          · exact Or.inl hmem
          · simp only [List.mem_singleton] at hmem
            subst hmem
            exact Or.inr ⟨hasWordP_pyStrip htw, by rwa [count_tokens_pyStrip]⟩
        · exact Or.inr hgood
      · rw [wordFallback_cons_acc ht hc]
        exact ih chunks (temp ++ ' ' :: w) hall'
          (Or.inr ⟨hasWordP_append_left _ htw, by omega⟩)

theorem sentLoop_shape (M : Nat) (hM : 1 ≤ M) (sents₀ : List Str)
    (hs₀ : ∀ s ∈ sents₀, s = [] ∨ hasWordP s) :
    ∀ (sents chunks : List Str) (cur : Str),
      (∀ s ∈ sents, s ∈ sents₀) →
      (cur = [] ∨ (hasWordP cur ∧ (count_tokens cur ≤ M ∨ cur ∈ sents₀))) →
      (∀ c ∈ chunks,
        hasWordP c ∧ (count_tokens c ≤ M ∨ ∃ s ∈ sents₀, c = pyStrip s)) →
      (∀ c ∈ (sentLoop M sents chunks cur).1,
        hasWordP c ∧ (count_tokens c ≤ M ∨ ∃ s ∈ sents₀, c = pyStrip s)) ∧
      ((sentLoop M sents chunks cur).2 = [] ∨
        (hasWordP (sentLoop M sents chunks cur).2 ∧
          (count_tokens (sentLoop M sents chunks cur).2 ≤ M ∨
            (sentLoop M sents chunks cur).2 ∈ sents₀))) := by
  intro sents
  induction sents with
  | nil =>
    intro chunks cur _ hcur hchunks
    exact ⟨hchunks, hcur⟩
  | cons s ss ih =>
    intro chunks cur hmem hcur hchunks
    have hsmem : s ∈ sents₀ := hmem s (by simp)
    have hmem' : ∀ v ∈ ss, v ∈ sents₀ := fun v hv => hmem v (by simp [hv])
    by_cases hcnil : cur = []
    · subst hcnil
      by_cases hc : count_tokens s > M
      · rw [sentLoop_cons_fallback hc]
        have hfb := wordFallback_shape M hM (pyWords s) chunks []
          (fun w hw => mem_pyWords hw) (Or.inl rfl)
        refine ih (wordFallback M (pyWords s) chunks []).1
          (wordFallback M (pyWords s) chunks []).2 hmem' ?_ ?_
        · rcases hfb.2 with h | ⟨h1, h2⟩
          · exact Or.inl h
          · exact Or.inr ⟨h1, Or.inl h2⟩
        · intro c hc2
          rcases hfb.1 c hc2 with hmem2 | ⟨h1, h2⟩
          · exact hchunks c hmem2
          · exact ⟨h1, Or.inl h2⟩
      · rw [sentLoop_cons_acc_nil hc]
        refine ih chunks s hmem' ?_ hchunks
        rcases hs₀ s hsmem with hnil | hword
        · exact Or.inl hnil
        · exact Or.inr ⟨hword, Or.inl (by omega)⟩
    · rcases hcur with h | ⟨hcw, hcb⟩
      · exact absurd h hcnil
      by_cases hc : count_tokens (cur ++ ' ' :: s) > M
      · rw [sentLoop_cons_flush hcnil hc]
        refine ih (chunks ++ [pyStrip cur]) s hmem' ?_ ?_
        · rcases hs₀ s hsmem with hnil | hword
          · exact Or.inl hnil
          · exact Or.inr ⟨hword, Or.inr hsmem⟩
        · intro c hc2
          rcases List.mem_append.mp hc2 with hmem2 | hmem2
          · exact hchunks c hmem2
          · simp only [List.mem_singleton] at hmem2
            subst hmem2
            refine ⟨hasWordP_pyStrip hcw, ?_⟩
            rcases hcb with hle | hin
            · exact Or.inl (by rwa [count_tokens_pyStrip])
            · exact Or.inr ⟨cur, hin, rfl⟩
      · rw [sentLoop_cons_acc hcnil hc]
        exact ih chunks (cur ++ ' ' :: s) hmem'
          (Or.inr ⟨hasWordP_append_left _ hcw, Or.inl (by omega)⟩) hchunks

theorem split_text_into_chunks_ne_nil {text : Str} (M : Nat)
    (h : hasWordP text) : split_text_into_chunks text M ≠ [] := by
  intro hcon
  have hw := split_text_into_chunks_words text M
  rw [hcon] at hw
  exact pyWords_ne_nil_of_hasWord h (by simpa [wordsOfAll] using hw.symm)

theorem split_text_into_chunks_shape {text : Str} {M : Nat} (hM : 1 ≤ M)
    (htext : hasWordP text) :
    ∀ c ∈ split_text_into_chunks text M,
      hasWordP c ∧
        (count_tokens c ≤ M ∨ ∃ s ∈ splitSentences text, c = pyStrip s) := by
  intro c hc
  have hmain := sentLoop_shape M hM (splitSentences text)
    (splitSentences_shape htext) (splitSentences text) [] []
    (fun s hs => hs) (Or.inl rfl) (by simp)
  unfold split_text_into_chunks at hc
  by_cases h2 : (sentLoop M (splitSentences text) [] []).2 = []
  · rw [if_neg (by simpa using h2)] at hc
    exact hmain.1 c hc
  · rw [if_pos (by simpa using h2)] at hc
    rcases List.mem_append.mp hc with hmem | hmem
    · exact hmain.1 c hmem
    · simp only [List.mem_singleton] at hmem
      subst hmem
      rcases hmain.2 with hnil | ⟨hword, hb⟩
      · exact absurd hnil h2
      refine ⟨hasWordP_pyStrip hword, ?_⟩
      rcases hb with hle | hin
      · exact Or.inl (by rwa [count_tokens_pyStrip])
      · exact Or.inr ⟨_, hin, rfl⟩

/-! ## The all-fits path of the chunker (the C6 invariant) -/

theorem foldl_glue_eq (sents : List Str) :
    ∀ cur : Str,
      sents.foldl (fun acc s => acc ++ ' ' :: s) cur =
        cur ++ (sents.map (fun s => ' ' :: s)).flatten := by
  induction sents with
  | nil => intro cur; simp
  | cons s ss ih =>
    intro cur
    simp only [List.foldl_cons, List.map_cons, List.flatten_cons]
    rw [ih (cur ++ ' ' :: s)]
    simp [List.append_assoc]

theorem joinSpace_cons_eq (s : Str) (rest : List Str) :
    joinSpace (s :: rest) = s ++ (rest.map (fun t => ' ' :: t)).flatten := by
  induction rest generalizing s with
  | nil => simp [joinSpace]
  | cons r rs ih =>
    simp only [joinSpace, List.map_cons, List.flatten_cons]
    rw [ih r]
    simp [List.append_assoc]

theorem sentLoop_all_fit (M : Nat) :
    ∀ (sents chunks : List Str) (cur : Str), cur ≠ [] →
      count_tokens cur + (wordsOfAll sents).length ≤ M →
      sentLoop M sents chunks cur =
        (chunks, sents.foldl (fun acc s => acc ++ ' ' :: s) cur) := by
  intro sents
  induction sents with
  | nil => intro chunks cur _ _; rfl
  | cons s ss ih =>
    intro chunks cur hcur hfit
    have hlen : (wordsOfAll (s :: ss)).length =
        count_tokens s + (wordsOfAll ss).length := by
      rw [wordsOfAll_cons]; simp [count_tokens]
    have htest : count_tokens (cur ++ ' ' :: s) =
        count_tokens cur + count_tokens s := count_tokens_append_space cur s
    have hc : ¬ count_tokens (cur ++ ' ' :: s) > M := by omega
    rw [sentLoop_cons_acc hcur hc, ih chunks (cur ++ ' ' :: s) (by simp) (by omega)]
    simp

theorem split_text_into_chunks_all_fit {text : Str} {M : Nat}
    (hne : text ≠ []) (hcnt : count_tokens text ≤ M) :
    split_text_into_chunks text M = [pyStrip (joinSpace (splitSentences text))] := by
  obtain ⟨s, rest, heq, hs_ne⟩ := sentencesAux_head_ne_nil text [] (Or.inr hne)
  have heq' : splitSentences text = s :: rest := heq
  have hw : pyWords s ++ wordsOfAll rest = pyWords text := by
    have := wordsOfAll_splitSentences text
    rw [heq', wordsOfAll_cons] at this
    exact this
  have hlen : count_tokens s + (wordsOfAll rest).length = count_tokens text := by
    have := congrArg List.length hw
    simpa [count_tokens] using this
  have hsle : ¬ count_tokens s > M := by omega
  have hglue := sentLoop_all_fit M rest [] s hs_ne (by omega)
  have hfold : rest.foldl (fun acc t => acc ++ ' ' :: t) s = joinSpace (s :: rest) := by
    rw [foldl_glue_eq, joinSpace_cons_eq]
  have hres : sentLoop M (splitSentences text) [] [] =
      ([], joinSpace (s :: rest)) := by
    rw [heq', sentLoop_cons_acc_nil hsle, hglue, hfold]
  have hjne : joinSpace (s :: rest) ≠ [] := by
    rw [joinSpace_cons_eq]
    intro hcon
    exact hs_ne (List.append_eq_nil.mp hcon).1
  unfold split_text_into_chunks
  rw [hres]
  simp only [hjne, ne_eq, not_false_eq_true, if_true]
  rw [heq']
  simp

/-! ## Lemmas about `sanitize_filename` -/

theorem mem_collapseUndersAux {c : Char} :
    ∀ (l : Str) (b : Bool), c ∈ collapseUndersAux b l → c ∈ l := by
  intro l
  induction l with
  | nil => intro b h; simp [collapseUndersAux] at h
  | cons d cs ih =>
    intro b h
    by_cases hd : d = '_'
    · subst hd
      simp only [collapseUndersAux, if_pos rfl] at h
      cases b with
      | true => exact List.mem_cons_of_mem _ (ih true (by simpa using h))
      | false =>
        rcases List.mem_cons.mp (by simpa using h) with rfl | h2
        · simp
        · exact List.mem_cons_of_mem _ (ih true h2)
    · simp only [collapseUndersAux, if_neg hd] at h
      rcases List.mem_cons.mp h with rfl | h2
      · simp
      · exact List.mem_cons_of_mem _ (ih false h2)

theorem dropTrailP_pre (p : Char → Bool) : ∀ l : Str, dropTrailP p l <+: l := by
  intro l
  induction l with
  | nil => simp [dropTrailP]
  | cons c cs ih =>
    simp only [dropTrailP]
    split
    · exact ⟨c :: cs, rfl⟩
    · exact List.prefix_cons_inj c |>.mpr ih

theorem mem_dropTrailP {p : Char → Bool} {c : Char} {l : Str}
    (h : c ∈ dropTrailP p l) : c ∈ l :=
  (dropTrailP_pre p l).subset h

theorem hasDoubleUnder_tail {d : Char} {cs : Str}
    (h : hasDoubleUnder (d :: cs) = false) : hasDoubleUnder cs = false := by
  cases cs with
  | nil => rfl
  | cons e es =>
    simp only [hasDoubleUnder, Bool.or_eq_false_iff] at h
    exact h.2

theorem collapseUndersAux_true_head :
    ∀ l : Str, ∀ d, (collapseUndersAux true l).head? = some d → d ≠ '_' := by
  intro l
  induction l with
  | nil => intro d h; simp [collapseUndersAux] at h
  | cons c cs ih =>
    intro d h
    by_cases hc : c = '_'
    · subst hc
      simp only [collapseUndersAux, if_pos rfl, if_pos rfl] at h
      exact ih d h
    · simp only [collapseUndersAux, if_neg hc, List.head?_cons,
        Option.some_inj] at h
      subst h
      exact hc

theorem collapseUndersAux_no_double :
    ∀ (l : Str) (b : Bool), hasDoubleUnder (collapseUndersAux b l) = false := by
  intro l
  induction l with
  | nil => intro b; rfl
  | cons c cs ih =>
    intro b
    by_cases hc : c = '_'
    · subst hc
      cases b with
      | true => simpa [collapseUndersAux] using ih true
      | false =>
        simp only [collapseUndersAux, if_pos rfl, if_neg Bool.false_ne_true]
        cases hr : collapseUndersAux true cs with
        | nil => rfl
        | cons d ds =>
          have hd : d ≠ '_' := collapseUndersAux_true_head cs d (by rw [hr]; rfl)
          have := ih true
          rw [hr] at this
          simp [hasDoubleUnder, hd, this]
    · simp only [collapseUndersAux, if_neg hc]
      cases hr : collapseUndersAux false cs with
      | nil => rfl
      | cons d ds =>
        have := ih false
        rw [hr] at this
        simp [hasDoubleUnder, hc, this]

theorem hasDoubleUnder_of_prefix :
    ∀ (x l : Str), x <+: l → hasDoubleUnder l = false → hasDoubleUnder x = false := by
  intro x
  induction x with
  | nil => intro l _ _; rfl
  | cons a x' ih =>
    intro l hpre hl
    obtain ⟨t, rfl⟩ := hpre
    cases x' with
    | nil => rfl
    | cons b x'' =>
      simp only [List.cons_append] at hl
      have hpair : (a = '_' && b = '_') = false := by
        by_contra hcon
        simp only [hasDoubleUnder, Bool.or_eq_false_iff] at hl
        exact hcon hl.1
      have htl : hasDoubleUnder (b :: (x'' ++ t)) = false :=
        hasDoubleUnder_tail hl
      have := ih (b :: x'' ++ t) ⟨t, by simp⟩ (by simpa using htl)
      simp [hasDoubleUnder, hpair, this]

theorem hasDoubleUnder_dropWhile (p : Char → Bool) :
    ∀ l : Str, hasDoubleUnder l = false → hasDoubleUnder (l.dropWhile p) = false := by
  intro l
  induction l with
  | nil => intro h; exact h
  | cons c cs ih =>
    intro h
    by_cases hc : p c = true
    · simp only [List.dropWhile_cons, hc, if_pos rfl]
      exact ih (hasDoubleUnder_tail h)
    · simp only [List.dropWhile_cons]
      rw [show p c = false by simpa using hc]
      simpa using h

theorem dropWhile_head_not (p : Char → Bool) :
    ∀ l : Str, ∀ c, (l.dropWhile p).head? = some c → p c = false := by
  intro l
  induction l with
  | nil => intro c h; simp at h
  | cons d cs ih =>
    intro c h
    by_cases hd : p d = true
    · rw [List.dropWhile_cons, if_pos hd] at h
      exact ih c h
    · rw [List.dropWhile_cons, if_neg hd] at h
      simp only [List.head?_cons, Option.some_inj] at h
      subst h
      simpa using hd

theorem dropTrailP_last_not (p : Char → Bool) :
    ∀ l : Str, ∀ c, (dropTrailP p l).getLast? = some c → p c = false := by
  intro l
  induction l with
  | nil => intro c h; simp [dropTrailP] at h
  | cons d cs ih =>
    intro c h
    simp only [dropTrailP] at h
    by_cases hcond : dropTrailP p cs = [] ∧ p d = true
    · rw [if_pos hcond] at h; simp at h
    · rw [if_neg hcond] at h
      cases hr : dropTrailP p cs with
      | nil =>
        rw [hr] at h
        simp only [List.getLast?_singleton, Option.some_inj] at h
        subst h
        by_contra hcon
        exact hcond ⟨hr, by simpa using hcon⟩
      | cons e es =>
        rw [hr, List.getLast?_cons_cons] at h
        exact ih c (by rwa [hr])

theorem pre_head_eq {x l : Str} (h : x <+: l) (hne : x ≠ []) :
    x.head? = l.head? := by
  obtain ⟨t, rfl⟩ := h
  cases x with
  | nil => exact absurd rfl hne
  | cons a x' => simp

/-! ## Occurrence counting: append decomposition without straddles -/

theorem isPre_iff : ∀ (p l : Str), isPre p l = true ↔ p <+: l := by
  intro p
  induction p with
  | nil => intro l; simp [isPre]
  | cons a p' ih =>
    intro l
    cases l with
    | nil =>
      simp only [isPre, Bool.false_eq_true, false_iff]
      intro hcon
      exact absurd (List.eq_nil_of_prefix_nil hcon) (by simp)
    | cons b bs =>
      simp only [isPre, Bool.and_eq_true_iff, decide_eq_true_eq, ih bs]
      constructor
      · rintro ⟨rfl, hpre⟩
        exact List.cons_prefix_cons.mpr ⟨rfl, hpre⟩
      · intro h
        exact ⟨(List.cons_prefix_cons.mp h).1, (List.cons_prefix_cons.mp h).2⟩

/-- `x` is a suffix of `a` (boolean). -/
def isSuf (x a : Str) : Bool := isPre x.reverse a.reverse

theorem isSuf_iff (x a : Str) : isSuf x a = true ↔ x <:+ a := by
  rw [isSuf, isPre_iff]
  constructor
  · intro h
    have := @List.reverse_suffix _ x.reverse a.reverse |>.mpr h
    simpa using this
  · intro h
    have : x.reverse.reverse <:+ a.reverse.reverse := by simpa using h
    exact List.reverse_suffix.mp this

/-- No occurrence of `p` straddles the boundary between `a` and `b`. -/
def NoStraddle (p a b : Str) : Prop :=
  ∀ x y, p = x ++ y → x ≠ [] → y ≠ [] → ¬(x <:+ a ∧ y <+: b)

theorem countOccur_nil {p : Str} (hp : p ≠ []) : countOccur p [] = 0 := by
  match p, hp with
  | c :: p', _ => simp [countOccur, isPre]

theorem prefix_of_append_of_le {p a b : Str} (h : p <+: a ++ b)
    (hlen : p.length ≤ a.length) : p <+: a := by
  have htake := List.prefix_iff_eq_take.mp h
  rw [List.take_append_of_le_length hlen] at htake
  refine ⟨a.drop p.length, ?_⟩
  nth_rewrite 1 [htake]
  exact List.take_append_drop p.length a

theorem isPre_append_of_noStraddle {p a b : Str} (ha : a ≠ [])
    (hns : NoStraddle p a b) : isPre p (a ++ b) = isPre p a := by
  by_cases h : p <+: a ++ b
  · rw [(isPre_iff p (a ++ b)).mpr h]
    by_cases hlen : p.length ≤ a.length
    · exact ((isPre_iff p a).mpr (prefix_of_append_of_le h hlen)).symm
    · exfalso
      have hap : a <+: p :=
        List.prefix_of_prefix_length_le (List.prefix_append a b) h (by omega)
      obtain ⟨y, hy⟩ := hap
      have hylen : y ≠ [] := by
        intro hcon
        rw [hcon, List.append_nil] at hy
        rw [← hy] at hlen
        omega
      have hyb : y <+: b := by
        have : a ++ y <+: a ++ b := by rw [hy]; exact h
        exact (List.prefix_append_right_inj a).mp this
      exact hns a y hy.symm ha hylen ⟨List.suffix_rfl, hyb⟩
  · have h1 : isPre p (a ++ b) = false := by
      cases hval : isPre p (a ++ b)
      · rfl
      · exact absurd ((isPre_iff p (a ++ b)).mp hval) h
    have h2 : isPre p a = false := by
      cases hval : isPre p a
      · rfl
      · exact absurd (((isPre_iff p a).mp hval).trans (List.prefix_append a b)) h
    rw [h1, h2]

theorem noStraddle_tail {p : Str} {c : Char} {a' b : Str}
    (hns : NoStraddle p (c :: a') b) : NoStraddle p a' b := by
  intro x y hxy hx hy hcon
  exact hns x y hxy hx hy ⟨hcon.1.trans (List.suffix_cons c a'), hcon.2⟩

theorem countOccur_append {p : Str} (hp : p ≠ []) :
    ∀ (a b : Str), NoStraddle p a b →
      countOccur p (a ++ b) = countOccur p a + countOccur p b := by
  intro a
  induction a with
  | nil =>
    intro b _
    simp [countOccur_nil hp]
  | cons c a' ih =>
    intro b hns
    have hhead : isPre p (c :: (a' ++ b)) = isPre p (c :: a') := by
      have := isPre_append_of_noStraddle (p := p) (b := b) (a := c :: a') (by simp) hns
      simpa using this
    have hrec : countOccur p (a' ++ b) = countOccur p a' + countOccur p b :=
      ih b (noStraddle_tail hns)
    show (if isPre p (c :: (a' ++ b)) = true then 1 else 0) + countOccur p (a' ++ b) =
      ((if isPre p (c :: a') = true then 1 else 0) + countOccur p a') + countOccur p b
    rw [hhead, hrec, Nat.add_assoc]

theorem noStraddle_of_preCheck {p a : Str} (b : Str)
    (h : ∀ x, x <+: p → x ≠ [] → ¬ x <:+ a) : NoStraddle p a b := by
  intro x y hxy hx _ hcon
  exact h x ⟨y, hxy.symm⟩ hx hcon.1

theorem noStraddle_of_sufCheck {p f : Str} (a rest : Str)
    (h : ∀ y, y <:+ p → y ≠ [] → y.length < p.length →
      ¬ y <+: f ∧ ¬ f <+: y) : NoStraddle p a (f ++ rest) := by
  intro x y hxy hx hy hcon
  have hysuf : y <:+ p := ⟨x, hxy.symm⟩
  have hylen : y.length < p.length := by
    have hlen := congrArg List.length hxy
    simp only [List.length_append] at hlen
    have hx1 : 1 ≤ x.length := by
      match x, hx with
      | d :: _, _ => simp
    omega
  have hchecks := h y hysuf hy hylen
  by_cases hlen : y.length ≤ f.length
  · exact hchecks.1 (prefix_of_append_of_le hcon.2 hlen)
  · exact hchecks.2
      (List.prefix_of_prefix_length_le (List.prefix_append f rest) hcon.2 (by omega))

theorem preCheck_of_bool {p a : Str}
    (h : ((List.range p.length).all fun k => !(isSuf (p.take (k + 1)) a)) = true) :
    ∀ x, x <+: p → x ≠ [] → ¬ x <:+ a := by
  intro x hx hxne hcon
  have hxlen : 1 ≤ x.length := by
    match x, hxne with
    | d :: _, _ => simp
  have hxlen2 : x.length ≤ p.length := hx.length_le
  have htake : x = p.take x.length := List.prefix_iff_eq_take.mp hx
  have hk : x.length - 1 ∈ List.range p.length := by
    rw [List.mem_range]; omega
  have hall := List.all_eq_true.mp h _ hk
  rw [show x.length - 1 + 1 = x.length by omega, ← htake] at hall
  rw [(isSuf_iff x a).mpr hcon] at hall
  simp at hall

theorem sufCheck_of_bool {p f : Str}
    (h : ((List.range (p.length - 1)).all fun k =>
      !(isPre (p.drop (k + 1)) f) && !(isPre f (p.drop (k + 1)))) = true) :
    ∀ y, y <:+ p → y ≠ [] → y.length < p.length → ¬ y <+: f ∧ ¬ f <+: y := by
  intro y hy hyne hylen
  obtain ⟨x, hx⟩ := hy
  subst hx
  have hy1 : 1 ≤ y.length := by
    match y, hyne with
    | d :: _, _ => simp
  have hxy : (x ++ y).length = x.length + y.length := by simp
  have hk : x.length - 1 ∈ List.range ((x ++ y).length - 1) := by
    rw [List.mem_range, hxy]
    rw [hxy] at hylen
    omega
  have hall := List.all_eq_true.mp h _ hk
  rw [show x.length - 1 + 1 = x.length by omega, List.drop_left] at hall
  simp only [Bool.and_eq_true, Bool.not_eq_true'] at hall
  constructor
  · intro hcon
    rw [(isPre_iff y f).mpr hcon] at hall
    simp at hall
  · intro hcon
    rw [(isPre_iff f y).mpr hcon] at hall
    simp at hall

theorem countOccur_eq_zero_iff {p : Str} (hp : p ≠ []) :
    ∀ l : Str, countOccur p l = 0 ↔ ¬ p <:+: l := by
  have base : ∀ l : Str, countOccur p l = 0 ↔ ∀ i, ¬ p <+: l.drop i := by
    intro l
    induction l with
    | nil =>
      simp only [countOccur_nil hp, List.drop_nil, true_iff]
      intro i hcon
      exact absurd (List.eq_nil_of_prefix_nil hcon) hp
    | cons c cs ih =>
      simp only [countOccur]
      constructor
      · intro h i
        have h1 : isPre p (c :: cs) = false := by
          cases hval : isPre p (c :: cs)
          · rfl
          · rw [hval] at h; simp at h
        have h2 : countOccur p cs = 0 := by
          rw [h1] at h; simpa using h
        cases i with
        | zero =>
          intro hcon
          rw [(isPre_iff p (c :: cs)).mpr hcon] at h1
          simp at h1
        | succ j => exact (ih.mp h2) j
      · intro h
        have h1 : isPre p (c :: cs) = false := by
          cases hval : isPre p (c :: cs)
          · rfl
          · exact absurd ((isPre_iff p (c :: cs)).mp hval) (h 0)
        have h2 : countOccur p cs = 0 := ih.mpr (fun j => h (j + 1))
        simp [h1, h2]
  intro l
  rw [base l]
  constructor
  · intro h hcon
    obtain ⟨s, t, hst⟩ := hcon
    refine h s.length ?_
    rw [← hst]
    have hd : List.drop s.length (s ++ (p ++ t)) = p ++ t := List.drop_left s (p ++ t)
    rw [show s ++ p ++ t = s ++ (p ++ t) by simp, hd]
    exact List.prefix_append p t
  · intro h i hcon
    obtain ⟨t, ht⟩ := hcon
    refine h ⟨l.take i, t, ?_⟩
    rw [List.append_assoc, ht, List.take_append_drop]

/-! ## Lemmas about `merge_summaries` -/

theorem natStr_one : natStr 1 = str "1" := by decide
theorem natStr_two : natStr 2 = str "2" := by decide

theorem str_merge {a b c : String} (h : str a ++ str b = str c) (Z : Str) :
    str a ++ (str b ++ Z) = str c ++ Z := by
  rw [← List.append_assoc, h]

theorem merge_one_decomp (s t d : Str) :
    merge_summaries [s] t d =
      str "# " ++ ((if t ≠ [] then t else str "YouTube Video Summary") ++
        (str "\n\n*Generated on: " ++ (d ++ (str "*\n*Total sections: 1*\n\n" ++
          (s ++ str "\n\n"))))) := by
  simp only [merge_summaries, mergeHeader, mergeBody, tocSection,
    List.length_singleton, natStr_one]
  norm_num
  rw [str_merge (show str "*\n*Total sections: " ++ str "1" =
    str "*\n*Total sections: 1" by decide)]
  rw [str_merge (show str "*\n*Total sections: 1" ++ str "*\n\n" =
    str "*\n*Total sections: 1*\n\n" by decide)]

theorem merge_two_decomp (s1 s2 t d : Str) :
    merge_summaries [s1, s2] t d =
      str "# " ++ ((if t ≠ [] then t else str "YouTube Video Summary") ++
        (str "\n\n*Generated on: " ++ (d ++
          (str "*\n*Total sections: 2*\n\n## Table of Contents\n\n- [Part 1](#part-1)\n- [Part 2](#part-2)\n\n---\n\n## Part 1\n\n" ++
            (s1 ++ (str "\n\n---\n\n## Part 2\n\n" ++ (s2 ++ str "\n\n"))))))) := by
  simp only [merge_summaries, mergeHeader, mergeBody, tocSection,
    List.length_cons, List.length_nil]
  norm_num
  rw [show (tocLines 2).flatten =
    str "- [Part 1](#part-1)\n- [Part 2](#part-2)\n" by decide]
  rw [natStr_one, natStr_two]
  rw [str_merge (show str "*\n*Total sections: " ++ str "2" = str "*\n*Total sections: 2" by decide)]
  rw [str_merge (show str "*\n*Total sections: 2" ++ str "*\n\n" = str "*\n*Total sections: 2*\n\n" by decide)]
  rw [str_merge (show str "*\n*Total sections: 2*\n\n" ++ str "## Table of Contents\n\n" = str "*\n*Total sections: 2*\n\n## Table of Contents\n\n" by decide)]
  rw [str_merge (show str "*\n*Total sections: 2*\n\n## Table of Contents\n\n" ++ str "- [Part 1](#part-1)\n- [Part 2](#part-2)\n" = str "*\n*Total sections: 2*\n\n## Table of Contents\n\n- [Part 1](#part-1)\n- [Part 2](#part-2)\n" by decide)]
  rw [str_merge (show str "*\n*Total sections: 2*\n\n## Table of Contents\n\n- [Part 1](#part-1)\n- [Part 2](#part-2)\n" ++ str "\n---\n\n" = str "*\n*Total sections: 2*\n\n## Table of Contents\n\n- [Part 1](#part-1)\n- [Part 2](#part-2)\n\n---\n\n" by decide)]
  rw [str_merge (show str "*\n*Total sections: 2*\n\n## Table of Contents\n\n- [Part 1](#part-1)\n- [Part 2](#part-2)\n\n---\n\n" ++ str "## Part " = str "*\n*Total sections: 2*\n\n## Table of Contents\n\n- [Part 1](#part-1)\n- [Part 2](#part-2)\n\n---\n\n## Part " by decide)]
  rw [str_merge (show str "*\n*Total sections: 2*\n\n## Table of Contents\n\n- [Part 1](#part-1)\n- [Part 2](#part-2)\n\n---\n\n## Part " ++ str "1" = str "*\n*Total sections: 2*\n\n## Table of Contents\n\n- [Part 1](#part-1)\n- [Part 2](#part-2)\n\n---\n\n## Part 1" by decide)]
  rw [str_merge (show str "*\n*Total sections: 2*\n\n## Table of Contents\n\n- [Part 1](#part-1)\n- [Part 2](#part-2)\n\n---\n\n## Part 1" ++ str "\n\n" = str "*\n*Total sections: 2*\n\n## Table of Contents\n\n- [Part 1](#part-1)\n- [Part 2](#part-2)\n\n---\n\n## Part 1\n\n" by decide)]
  rw [str_merge (show str "\n\n" ++ str "---\n\n" = str "\n\n---\n\n" by decide)]
  rw [str_merge (show str "\n\n---\n\n" ++ str "## Part " = str "\n\n---\n\n## Part " by decide)]
  rw [str_merge (show str "\n\n---\n\n## Part " ++ str "2" = str "\n\n---\n\n## Part 2" by decide)]
  rw [str_merge (show str "\n\n---\n\n## Part 2" ++ str "\n\n" = str "\n\n---\n\n## Part 2\n\n" by decide)]

theorem noStraddle_of_preCheckB (p a : Str) {b : Str}
    (h : ((List.range p.length).all fun k => !(isSuf (p.take (k + 1)) a)) = true) :
    NoStraddle p a b :=
  noStraddle_of_preCheck b (preCheck_of_bool h)

theorem noStraddle_of_sufCheckB (p f : Str) {a rest : Str}
    (h : ((List.range (p.length - 1)).all fun k =>
      !(isPre (p.drop (k + 1)) f) && !(isPre f (p.drop (k + 1)))) = true) :
    NoStraddle p a (f ++ rest) :=
  noStraddle_of_sufCheck a rest (sufCheck_of_bool h)

theorem noStraddle_of_sufCheckB_full (p f a : Str)
    (h : ((List.range (p.length - 1)).all fun k =>
      !(isPre (p.drop (k + 1)) f) && !(isPre f (p.drop (k + 1)))) = true) :
    NoStraddle p a f := by
  have h2 := @noStraddle_of_sufCheckB p f a [] h
  rwa [List.append_nil] at h2

theorem countOccur_merge_one_generic (p s t d : Str) (hp : p ≠ [])
    (hs : countOccur p s = 0) (ht : countOccur p t = 0) (hd : countOccur p d = 0)
    (hdef : countOccur p (str "YouTube Video Summary") = 0)
    (hA0 : countOccur p (str "# ") = 0)
    (hA1 : countOccur p (str "\n\n*Generated on: ") = 0)
    (hB2 : countOccur p (str "*\n*Total sections: 1*\n\n") = 0)
    (hA4 : countOccur p (str "\n\n") = 0)
    (c1 : ((List.range p.length).all fun k =>
      !(isSuf (p.take (k + 1)) (str "# "))) = true)
    (c2 : ((List.range (p.length - 1)).all fun k =>
      !(isPre (p.drop (k + 1)) (str "\n\n*Generated on: ")) &&
        !(isPre (str "\n\n*Generated on: ") (p.drop (k + 1)))) = true)
    (c3 : ((List.range p.length).all fun k =>
      !(isSuf (p.take (k + 1)) (str "\n\n*Generated on: "))) = true)
    (c4 : ((List.range (p.length - 1)).all fun k =>
      !(isPre (p.drop (k + 1)) (str "*\n*Total sections: 1*\n\n")) &&
        !(isPre (str "*\n*Total sections: 1*\n\n") (p.drop (k + 1)))) = true)
    (c5 : ((List.range p.length).all fun k =>
      !(isSuf (p.take (k + 1)) (str "*\n*Total sections: 1*\n\n"))) = true)
    (c6 : ((List.range (p.length - 1)).all fun k =>
      !(isPre (p.drop (k + 1)) (str "\n\n")) &&
        !(isPre (str "\n\n") (p.drop (k + 1)))) = true) :
    countOccur p (merge_summaries [s] t d) = 0 := by
  rw [merge_one_decomp]
  have hT : countOccur p (if t ≠ [] then t else str "YouTube Video Summary") = 0 := by
    by_cases h : t = [] <;> simp [h, ht, hdef]
  rw [countOccur_append hp _ _ (noStraddle_of_preCheckB p (str "# ") c1),
    countOccur_append hp _ _ (noStraddle_of_sufCheckB p (str "\n\n*Generated on: ") c2),
    countOccur_append hp _ _ (noStraddle_of_preCheckB p (str "\n\n*Generated on: ") c3),
    countOccur_append hp _ _
      (noStraddle_of_sufCheckB p (str "*\n*Total sections: 1*\n\n") c4),
    countOccur_append hp _ _
      (noStraddle_of_preCheckB p (str "*\n*Total sections: 1*\n\n") c5),
    countOccur_append hp _ _ (noStraddle_of_sufCheckB_full p (str "\n\n") s c6)]
  rw [hs, hT, hd, hA0, hA1, hB2, hA4]

theorem countOccur_merge_two_generic (p s1 s2 t d : Str) (hp : p ≠ [])
    (hs1 : countOccur p s1 = 0) (hs2 : countOccur p s2 = 0)
    (ht : countOccur p t = 0) (hd : countOccur p d = 0)
    (hdef : countOccur p (str "YouTube Video Summary") = 0)
    (hA0 : countOccur p (str "# ") = 0)
    (hA1 : countOccur p (str "\n\n*Generated on: ") = 0)
    (hA4 : countOccur p (str "\n\n") = 0)
    (c1 : ((List.range p.length).all fun k =>
      !(isSuf (p.take (k + 1)) (str "# "))) = true)
    (c2 : ((List.range (p.length - 1)).all fun k =>
      !(isPre (p.drop (k + 1)) (str "\n\n*Generated on: ")) &&
        !(isPre (str "\n\n*Generated on: ") (p.drop (k + 1)))) = true)
    (c3 : ((List.range p.length).all fun k =>
      !(isSuf (p.take (k + 1)) (str "\n\n*Generated on: "))) = true)
    (c4 : ((List.range (p.length - 1)).all fun k =>
      !(isPre (p.drop (k + 1))
          (str "*\n*Total sections: 2*\n\n## Table of Contents\n\n- [Part 1](#part-1)\n- [Part 2](#part-2)\n\n---\n\n## Part 1\n\n")) &&
        !(isPre
          (str "*\n*Total sections: 2*\n\n## Table of Contents\n\n- [Part 1](#part-1)\n- [Part 2](#part-2)\n\n---\n\n## Part 1\n\n")
          (p.drop (k + 1)))) = true)
    (c5 : ((List.range p.length).all fun k =>
      !(isSuf (p.take (k + 1))
        (str "*\n*Total sections: 2*\n\n## Table of Contents\n\n- [Part 1](#part-1)\n- [Part 2](#part-2)\n\n---\n\n## Part 1\n\n"))) = true)
    (c6 : ((List.range (p.length - 1)).all fun k =>
      !(isPre (p.drop (k + 1)) (str "\n\n---\n\n## Part 2\n\n")) &&
        !(isPre (str "\n\n---\n\n## Part 2\n\n") (p.drop (k + 1)))) = true)
    (c7 : ((List.range p.length).all fun k =>
      !(isSuf (p.take (k + 1)) (str "\n\n---\n\n## Part 2\n\n"))) = true)
    (c8 : ((List.range (p.length - 1)).all fun k =>
      !(isPre (p.drop (k + 1)) (str "\n\n")) &&
        !(isPre (str "\n\n") (p.drop (k + 1)))) = true) :
    countOccur p (merge_summaries [s1, s2] t d) =
      countOccur p
        (str "*\n*Total sections: 2*\n\n## Table of Contents\n\n- [Part 1](#part-1)\n- [Part 2](#part-2)\n\n---\n\n## Part 1\n\n") +
      countOccur p (str "\n\n---\n\n## Part 2\n\n") := by
  rw [merge_two_decomp]
  have hT : countOccur p (if t ≠ [] then t else str "YouTube Video Summary") = 0 := by
    by_cases h : t = [] <;> simp [h, ht, hdef]
  rw [countOccur_append hp _ _ (noStraddle_of_preCheckB p (str "# ") c1),
    countOccur_append hp _ _ (noStraddle_of_sufCheckB p (str "\n\n*Generated on: ") c2),
    countOccur_append hp _ _ (noStraddle_of_preCheckB p (str "\n\n*Generated on: ") c3),
    countOccur_append hp _ _ (noStraddle_of_sufCheckB p
      (str "*\n*Total sections: 2*\n\n## Table of Contents\n\n- [Part 1](#part-1)\n- [Part 2](#part-2)\n\n---\n\n## Part 1\n\n") c4),
    countOccur_append hp _ _ (noStraddle_of_preCheckB p
      (str "*\n*Total sections: 2*\n\n## Table of Contents\n\n- [Part 1](#part-1)\n- [Part 2](#part-2)\n\n---\n\n## Part 1\n\n") c5),
    countOccur_append hp _ _ (noStraddle_of_sufCheckB p (str "\n\n---\n\n## Part 2\n\n") c6),
    countOccur_append hp _ _ (noStraddle_of_preCheckB p (str "\n\n---\n\n## Part 2\n\n") c7),
    countOccur_append hp _ _ (noStraddle_of_sufCheckB_full p (str "\n\n") s2 c8)]
  rw [hs1, hs2, hT, hd, hA0, hA1, hA4]
  omega

theorem mem_infix_mergeBody :
    ∀ (ss : List Str) (n i : Nat) (s : Str), s ∈ ss → s <:+: mergeBody n i ss := by
  intro ss
  induction ss with
  | nil => intro n i s h; simp at h
  | cons a rest ih =>
    intro n i s h
    rcases List.mem_cons.mp h with rfl | h2
    · refine ⟨(if n > 1 then str "## Part " ++ natStr i ++ str "\n\n" else []),
        str "\n\n" ++ (if i < n then str "---\n\n" else []) ++
          mergeBody n (i + 1) rest, ?_⟩
      simp [mergeBody, List.append_assoc]
    · obtain ⟨u, v, huv⟩ := ih n (i + 1) s h2
      refine ⟨(if n > 1 then str "## Part " ++ natStr i ++ str "\n\n" else []) ++
        a ++ str "\n\n" ++ (if i < n then str "---\n\n" else []) ++ u, v, ?_⟩
      simp only [mergeBody]
      rw [← huv]
      simp [List.append_assoc]

theorem mem_infix_merge_summaries (ss : List Str) (t d : Str) {s : Str}
    (h : s ∈ ss) : s <:+: merge_summaries ss t d := by
  obtain ⟨u, v, huv⟩ := mem_infix_mergeBody ss ss.length 1 s h
  refine ⟨(mergeHeader t d ss.length ++
    (if ss.length > 1 then tocSection ss.length else [])) ++ u, v, ?_⟩
  rw [merge_summaries, ← huv]
  simp [List.append_assoc]

/-! ## Lemmas about the transcript selector -/

theorem get_subtitles_cases (cfg : ProcSettings) (tracks : List Track) :
    (get_subtitles cfg (.ok tracks) =
        .error ⟨str "No suitable subtitles found"⟩ ↔
      tierA cfg tracks = none ∧ tierB cfg tracks = none ∧ tierC tracks = none) ∧
    (∀ e, get_subtitles cfg (.ok tracks) = .error e →
      e = ⟨str "No suitable subtitles found"⟩) ∧
    (∀ s, get_subtitles cfg (.ok tracks) = .ok s →
      tierA cfg tracks = some s ∨ tierB cfg tracks = some s ∨
        tierC tracks = some s) := by
  have hdef : get_subtitles cfg (.ok tracks) =
      (match tierA cfg tracks with
       | some txt => Except.ok txt
       | none =>
         match tierB cfg tracks with
         | some txt => Except.ok txt
         | none =>
           match tierC tracks with
           | some txt => Except.ok txt
           | none => Except.error ⟨str "No suitable subtitles found"⟩) := rfl
  rw [hdef]
  split
  · rename_i txt hA
    refine ⟨⟨fun h => by simp at h, fun h => by rw [h.1] at hA; simp at hA⟩,
      fun e h => by simp at h, fun s h => ?_⟩
    simp only [Except.ok.injEq] at h
    exact Or.inl (by rw [hA, h])
  · rename_i hA
    split
    · rename_i txt hB
      refine ⟨⟨fun h => by simp at h, fun h => by rw [h.2.1] at hB; simp at hB⟩,
        fun e h => by simp at h, fun s h => ?_⟩
      simp only [Except.ok.injEq] at h
      exact Or.inr (Or.inl (by rw [hB, h]))
    · rename_i hB
      split
      · rename_i txt hC
        refine ⟨⟨fun h => by simp at h, fun h => by rw [h.2.2] at hC; simp at hC⟩,
          fun e h => by simp at h, fun s h => ?_⟩
        simp only [Except.ok.injEq] at h
        exact Or.inr (Or.inr (by rw [hC, h]))
      · rename_i hC
        refine ⟨⟨fun _ => ⟨hA, hB, hC⟩, fun _ => rfl⟩, fun e h => ?_,
          fun s h => by simp at h⟩
        simp only [Except.error.injEq] at h
        exact h.symm

theorem tierA_none_of_not_prefer (cfg : ProcSettings) (tracks : List Track)
    (h : cfg.prefer_manual_transcripts = false) : tierA cfg tracks = none := by
  unfold tierA
  rw [List.findSome?_eq_none_iff]
  intro lang _
  cases find_transcript tracks lang with
  | none => rfl
  | some t => simp [Option.bind, h]

/-! ## Lemmas about the summarization loops -/

theorem legacy_summarize_chunk_failure (api : Str → Nat → Nat → Except Str Str)
    (provider c : Str) (i total : Nat) {e : Str} (h : api c i total = .error e) :
    legacy_summarize_chunk api provider c i total = errorPlaceholder provider i e := by
  simp [legacy_summarize_chunk, h]

theorem summarize_chunk_failure (api : Str → Nat → Nat → Except Str Str)
    (provider c : Str) (i total : Nat) {e : Str} (h : api c i total = .error e) :
    summarize_chunk api provider c i total =
      .error ⟨errorPlaceholder provider i e⟩ := by
  simp [summarize_chunk, h]

theorem legacy_summaries_length (api : Str → Nat → Nat → Except Str Str)
    (provider : Str) (total : Nat) :
    ∀ (chunks : List Str) (i : Nat),
      (legacy_summaries api provider total i chunks).length = chunks.length := by
  intro chunks
  induction chunks with
  | nil => intro i; rfl
  | cons c cs ih => intro i; simp [legacy_summaries, ih (i + 1)]

theorem mem_legacy_summaries (api : Str → Nat → Nat → Except Str Str)
    (provider : Str) (total : Nat) :
    ∀ (pre : List Str) (c : Str) (post : List Str) (i : Nat),
      legacy_summarize_chunk api provider c (i + pre.length) total ∈
        legacy_summaries api provider total i (pre ++ c :: post) := by
  intro pre
  induction pre with
  | nil =>
    intro c post i
    simp [legacy_summaries]
  | cons a pre' ih =>
    intro c post i
    have hc := ih c post (i + 1)
    have harith : i + 1 + pre'.length = i + (a :: pre').length := by
      simp; omega
    rw [harith] at hc
    simpa [legacy_summaries] using Or.inr hc

theorem pipeline_summaries_error (api : Str → Nat → Nat → Except Str Str)
    (provider : Str) (total : Nat) :
    ∀ (pre : List Str) (c : Str) (post : List Str) (i : Nat) (e : Str),
      api c (i + pre.length) total = .error e →
      ∃ e', pipeline_summaries api provider total i (pre ++ c :: post) =
        .error e' := by
  intro pre
  induction pre with
  | nil =>
    intro c post i e h
    rw [List.nil_append]
    refine ⟨⟨errorPlaceholder provider i e⟩, ?_⟩
    have hsc := summarize_chunk_failure api provider c i total
      (by simpa using h)
    simp [pipeline_summaries, hsc]
  | cons a pre' ih =>
    intro c post i e h
    have harith : i + (a :: pre').length = i + 1 + pre'.length := by
      simp; omega
    rw [harith] at h
    obtain ⟨e', he'⟩ := ih c post (i + 1) e h
    rw [List.cons_append]
    cases hsc : summarize_chunk api provider a i total with
    | error e0 => exact ⟨e0, by simp [pipeline_summaries, hsc]⟩
    | ok s => exact ⟨e', by simp [pipeline_summaries, hsc, he']⟩

theorem pyWords_joinSpace : ∀ l : List Str, pyWords (joinSpace l) = wordsOfAll l := by
  intro l
  induction l with
  | nil => rfl
  | cons c cs ih =>
    cases cs with
    | nil => simp [joinSpace, wordsOfAll]
    | cons d ds =>
      have hsp : isPyWs ' ' = true := by decide
      rw [show joinSpace (c :: d :: ds) = c ++ ' ' :: joinSpace (d :: ds) from rfl]
      rw [pyWords_append_ws c (joinSpace (d :: ds)) hsp, ih, wordsOfAll_cons]
      rw [wordsOfAll_cons, wordsOfAll_cons]

theorem merge_one_simple (s t d : Str) :
    merge_summaries [s] t d = mergeHeader t d 1 ++ (s ++ str "\n\n") := by
  simp only [merge_summaries, mergeBody, List.length_singleton]
  norm_num

theorem merge_many_structure (ss : List Str) (t d : Str) (h : 2 ≤ ss.length) :
    merge_summaries ss t d =
      mergeHeader t d ss.length ++
        (tocSection ss.length ++ mergeBody ss.length 1 ss) := by
  simp only [merge_summaries]
  rw [if_pos (by omega)]
  simp [List.append_assoc]

theorem tocLines_length (n : Nat) : (tocLines n).length = n := by
  simp [tocLines]

/-! ## The claims -/

/-- C1 (counterexample): in the current package pipeline a failing
summarization call for chunk 2 is NOT recorded as placeholder text: the
`ProviderError` propagates, `process_video` wraps it into a processing error,
and no document containing the other chunks' summaries is produced. -/
theorem C1_counterexample :
    process_video_merge
      (fun _ i _ => if i = 2 then .error (str "boom") else .ok (str "fine"))
      (str "openai") [str "one", str "two", str "three"] (str "T") (str "D") =
      .error (str
        "Failed to process video: Error summarizing chunk 2 with openai: boom") :=
  rfl

/-- C1 (amended): the legacy implementation (`youtube_summarizer_openai.py`)
recovers a per-chunk summarization failure locally: `summarize_chunk` returns
the literal placeholder text `Error summarizing chunk {i} with {provider}: {e}`
instead of raising, the loop produces one summary per chunk, each chunk's
summary (the placeholder included) appears in the merged document.  In the
current package (`yt_summarizer/core`), by contrast, `summarize_chunk` raises
`ProviderError` with that same text and the per-chunk loop of `process_video`
propagates the first failure, aborting the document. -/
theorem C1_failure_policy :
    (∀ (api : Str → Nat → Nat → Except Str Str) (provider c : Str)
        (i total : Nat) (e : Str), api c i total = .error e →
      legacy_summarize_chunk api provider c i total =
        errorPlaceholder provider i e) ∧
    (∀ (api : Str → Nat → Nat → Except Str Str) (provider : Str) (total : Nat)
        (chunks : List Str) (i : Nat),
      (legacy_summaries api provider total i chunks).length = chunks.length) ∧
    (∀ (api : Str → Nat → Nat → Except Str Str) (provider : Str) (total : Nat)
        (pre : List Str) (c : Str) (post : List Str) (i : Nat),
      legacy_summarize_chunk api provider c (i + pre.length) total ∈
        legacy_summaries api provider total i (pre ++ c :: post)) ∧
    (∀ (ss : List Str) (t d s : Str), s ∈ ss → s <:+: merge_summaries ss t d) ∧
    (∀ (api : Str → Nat → Nat → Except Str Str) (provider c : Str)
        (i total : Nat) (e : Str), api c i total = .error e →
      summarize_chunk api provider c i total =
        .error ⟨errorPlaceholder provider i e⟩) ∧
    (∀ (api : Str → Nat → Nat → Except Str Str) (provider : Str) (total : Nat)
        (pre : List Str) (c : Str) (post : List Str) (i : Nat) (e : Str),
      api c (i + pre.length) total = .error e →
      ∃ e', pipeline_summaries api provider total i (pre ++ c :: post) =
        .error e') := by
  refine ⟨?_, ?_, ?_, ?_, ?_, ?_⟩
  · intro api provider c i total e h
    exact legacy_summarize_chunk_failure api provider c i total h
  · intro api provider total chunks i
    exact legacy_summaries_length api provider total chunks i
  · intro api provider total pre c post i
    exact mem_legacy_summaries api provider total pre c post i
  · intro ss t d s h
    exact mem_infix_merge_summaries ss t d h
  · intro api provider c i total e h
    exact summarize_chunk_failure api provider c i total h
  · intro api provider total pre c post i e h
    exact pipeline_summaries_error api provider total pre c post i e h

/-- C1 (witness): the amended statement at concrete inputs. -/
theorem C1_failure_policy_witness :
    legacy_summarize_chunk
        (fun _ i _ => if i = 2 then .error (str "boom") else .ok (str "fine"))
        (str "openai") (str "two") 2 3 =
      errorPlaceholder (str "openai") 2 (str "boom") ∧
    str "alpha" <:+: merge_summaries [str "alpha"] (str "T") (str "D") ∧
    ∃ e', pipeline_summaries
        (fun _ i _ => if i = 2 then .error (str "boom") else .ok (str "fine"))
        (str "openai") 3 1 [str "one", str "two", str "three"] = .error e' := by
  have h := C1_failure_policy
  refine ⟨h.1 _ (str "openai") (str "two") 2 3 (str "boom") rfl, ?_, ?_⟩
  · exact h.2.2.2.1 [str "alpha"] (str "T") (str "D") (str "alpha") (by simp)
  · exact h.2.2.2.2.2 _ (str "openai") 3 [str "one"] (str "two")
      [str "three"] 1 (str "boom") rfl

/-- C2 (counterexample): the claim fails on the code in two ways.  A
non-empty but whitespace-only input yields the single chunk `""`, which is
empty after trimming.  And a sentence that exceeds the budget while the
buffer is non-empty is flushed whole on the following step: for
`"a. b c d e f."` with budget 2 the second chunk is the five-word sentence
`"b c d e f."`, whose token count 5 exceeds the budget although it is not a
single indivisible word. -/
theorem C2_counterexample :
    (str " " ≠ [] ∧ split_text_into_chunks (str " ") 1 = [[]]) ∧
    (split_text_into_chunks (str "a. b c d e f.") 2 =
        [str "a.", str "b c d e f."] ∧
      count_tokens (str "b c d e f.") > 2 ∧
      (pyWords (str "b c d e f.")).length ≠ 1) := by decide

/-- C2 (amended): for every input containing a non-whitespace character and
every budget ≥ 1, `split_text_into_chunks` returns at least one chunk, every
chunk is non-empty after trimming, and every chunk either fits the budget or
is the trimmed form of a single sentence of the boundary split whose token
count alone exceeds the budget (the word-level fallback applies only when the
oversized sentence arrives on an empty buffer). -/
theorem C2_chunk_budget (text : Str) (M : Nat) (hM : 1 ≤ M)
    (htext : hasWordP text) :
    split_text_into_chunks text M ≠ [] ∧
    ∀ c ∈ split_text_into_chunks text M,
      pyStrip c ≠ [] ∧
        (count_tokens c ≤ M ∨
          ∃ s ∈ splitSentences text, c = pyStrip s ∧ M < count_tokens c) := by
  refine ⟨split_text_into_chunks_ne_nil M htext, fun c hc => ?_⟩
  obtain ⟨hw, hb⟩ := split_text_into_chunks_shape hM htext c hc
  refine ⟨pyStrip_ne_nil hw, ?_⟩
  by_cases hle : count_tokens c ≤ M
  · exact Or.inl hle
  · rcases hb with h | ⟨s, hs, hcs⟩
    · exact Or.inl h
    · exact Or.inr ⟨s, hs, hcs, by omega⟩

/-- C2 (witness): the amended statement at a concrete input. -/
theorem C2_chunk_budget_witness :
    split_text_into_chunks (str "Hi. Bye bye.") 2 ≠ [] ∧
    ∀ c ∈ split_text_into_chunks (str "Hi. Bye bye.") 2,
      pyStrip c ≠ [] ∧
        (count_tokens c ≤ 2 ∨
          ∃ s ∈ splitSentences (str "Hi. Bye bye."), c = pyStrip s ∧
            2 < count_tokens c) :=
  C2_chunk_budget (str "Hi. Bye bye.") 2 (by decide) (by decide)

/-- C3: the transcript selector follows the three-tier priority order.  With
a manual and a generated "en" track, prefer-manual and priority ["en"], it
returns the manual track's text.  With only a generated "fr" track it falls
through to the any-generated tier and returns the "fr" text.  The
any-generated tier scans tracks in their listed order, returning the first
generated one. -/
theorem C3_transcript_priority :
    get_subtitles ⟨[str "en"], true⟩
      (.ok [⟨str "en", false, some [str "manual text"]⟩,
            ⟨str "en", true, some [str "auto text"]⟩]) =
      .ok (str "manual text") ∧
    get_subtitles ⟨[str "en"], true⟩
      (.ok [⟨str "fr", true, some [str "texte fr"]⟩]) =
      .ok (str "texte fr") ∧
    get_subtitles ⟨[str "en"], true⟩
      (.ok [⟨str "fr", true, some [str "premier"]⟩,
            ⟨str "de", true, some [str "zweite"]⟩]) =
      .ok (str "premier") :=
  ⟨rfl, rfl, rfl⟩

/-- C4: joining the chunks with single spaces and collapsing whitespace
yields exactly the whitespace-collapsed input; equivalently, the word
sequence of the chunks, in order, is exactly the word sequence of the input
(no word lost, duplicated or split). -/
theorem C4_concat_reconstruction (text : Str) (M : Nat) :
    collapseWs (joinSpace (split_text_into_chunks text M)) = collapseWs text ∧
    wordsOfAll (split_text_into_chunks text M) = pyWords text := by
  have h := split_text_into_chunks_words text M
  refine ⟨?_, h⟩
  rw [collapseWs, collapseWs, pyWords_joinSpace, h]

/-- C5: every lookup or fetch failure inside the selector's per-state scan is
swallowed (modelled by the `Option` plumbing placed where the source's
`try/except` blocks are) and `get_subtitles` returns `TranscriptError` — the
terminal "No suitable subtitles found" exactly when no tier yields a track,
and a wrapped listing error when the initial listing call raises; an `ok`
result always comes from one of the three tiers. -/
theorem C5_selector_error_policy (cfg : ProcSettings)
    (listing : Except Str (List Track)) :
    (∀ tracks, listing = .ok tracks →
      ((get_subtitles cfg listing = .error ⟨str "No suitable subtitles found"⟩ ↔
        tierA cfg tracks = none ∧ tierB cfg tracks = none ∧
          tierC tracks = none) ∧
       (∀ e, get_subtitles cfg listing = .error e →
          e = ⟨str "No suitable subtitles found"⟩) ∧
       (∀ s, get_subtitles cfg listing = .ok s →
          tierA cfg tracks = some s ∨ tierB cfg tracks = some s ∨
            tierC tracks = some s))) ∧
    (∀ msg, listing = .error msg →
      get_subtitles cfg listing =
        .error ⟨str "Error getting subtitles: " ++ msg⟩) := by
  constructor
  · rintro tracks rfl
    exact get_subtitles_cases cfg tracks
  · rintro msg rfl
    rfl

/-- C5 (witness): the terminal failure on an empty track list. -/
theorem C5_selector_error_policy_witness :
    get_subtitles ⟨[str "en"], true⟩ (.ok ([] : List Track)) =
      .error ⟨str "No suitable subtitles found"⟩ :=
  ((C5_selector_error_policy ⟨[str "en"], true⟩ (.ok [])).1 [] rfl).1.mpr
    ⟨rfl, rfl, rfl⟩

/-- C6 (counterexample): when the input fits the budget the single chunk is
the sentences re-joined with single spaces, not the trimmed input: for
`"a.  b"` (two spaces after the sentence boundary) the chunk is `"a. b"`. -/
theorem C6_counterexample :
    count_tokens (str "a.  b") ≤ 100 ∧
    split_text_into_chunks (str "a.  b") 100 = [str "a. b"] ∧
    str "a. b" ≠ pyStrip (str "a.  b") := by decide

/-- C6 (amended): for every non-empty input whose total token count is within
the budget, the result is a single chunk: the sentences of the boundary split
re-joined with single spaces and trimmed.  When every sentence separator in
the input is a single space this equals the trimmed input. -/
theorem C6_single_chunk (text : Str) (M : Nat) (hne : text ≠ [])
    (hcnt : count_tokens text ≤ M) :
    split_text_into_chunks text M =
      [pyStrip (joinSpace (splitSentences text))] ∧
    (joinSpace (splitSentences text) = text →
      split_text_into_chunks text M = [pyStrip text]) := by
  have h := split_text_into_chunks_all_fit hne hcnt
  exact ⟨h, fun heq => by rw [h, heq]⟩

/-- C6 (witness): the spec scenario, whose separators are single spaces. -/
theorem C6_single_chunk_witness :
    split_text_into_chunks
        (str "Hello world. This is a test sentence that is quite short.")
        100 =
      [str "Hello world. This is a test sentence that is quite short."] := by
  have h := C6_single_chunk
    (str "Hello world. This is a test sentence that is quite short.")
    100 (by decide) (by decide)
  rw [h.2 (by decide)]
  decide

/-- C7 (counterexample): only the space character is replaced by an
underscore; other whitespace such as a tab passes through unchanged, so
"replaces every run of whitespace with a single underscore" fails on the
input `a<TAB>b`. -/
theorem C7_counterexample :
    sanitize_filename ['a', '\t', 'b'] = ['a', '\t', 'b'] ∧
    ['a', '\t', 'b'] ≠ str "a_b" := by decide

/-- C7 (amended): `sanitize_filename` removes every character of the invalid
set, replaces every run of spaces (U+0020 only — other whitespace is kept) by
a single underscore, collapses underscore runs and strips leading/trailing
underscores: the output contains no invalid character and no space, never two
adjacent underscores, and neither starts nor ends with an underscore; the two
concrete examples of the spec hold. -/
theorem C7_sanitize (l : Str) :
    (∀ c ∈ sanitize_filename l, invalidChar c = false ∧ c ≠ ' ') ∧
    hasDoubleUnder (sanitize_filename l) = false ∧
    (∀ c, (sanitize_filename l).head? = some c → c ≠ '_') ∧
    (∀ c, (sanitize_filename l).getLast? = some c → c ≠ '_') ∧
    sanitize_filename (str "test<file>name") = str "testfilename" ∧
    sanitize_filename (str "  a   b  ") = str "a_b" := by
  refine ⟨?_, ?_, ?_, ?_, by decide, by decide⟩
  · intro c hc
    simp only [sanitize_filename] at hc
    have h1 := mem_dropTrailP hc
    have h2 := (List.dropWhile_sublist _).subset h1
    have h3 := mem_collapseUndersAux _ false h2
    obtain ⟨a, ha, hfa⟩ := List.mem_map.mp h3
    obtain ⟨-, hainv⟩ := List.mem_filter.mp ha
    by_cases hsp : a = ' '
    · rw [if_pos hsp] at hfa
      subst hfa
      exact ⟨by decide, by decide⟩
    · rw [if_neg hsp] at hfa
      subst hfa
      exact ⟨by simpa using hainv, hsp⟩
  · simp only [sanitize_filename]
    exact hasDoubleUnder_of_prefix _ _ (dropTrailP_pre _ _)
      (hasDoubleUnder_dropWhile _ _ (collapseUndersAux_no_double _ false))
  · intro c hc
    simp only [sanitize_filename] at hc
    have hne : dropTrailP (fun c => c = '_')
        (List.dropWhile (fun c => c = '_')
          (collapseUndersAux false
            ((l.filter (fun c => !(invalidChar c))).map
              (fun c => if c = ' ' then '_' else c)))) ≠ [] := by
      intro hcon
      rw [hcon] at hc
      simp at hc
    have hhead := pre_head_eq (dropTrailP_pre _ _) hne
    rw [hhead] at hc
    have := dropWhile_head_not _ _ c hc
    simpa using this
  · intro c hc
    simp only [sanitize_filename] at hc
    have := dropTrailP_last_not _ _ c hc
    simpa using this

/-- C7 (witness): the amended statement at concrete inputs. -/
theorem C7_sanitize_witness :
    ('a' : Char) ≠ '_' ∧ ('b' : Char) ≠ '_' ∧
    sanitize_filename (str "  a   b  ") = str "a_b" := by
  refine ⟨(C7_sanitize (str "a b")).2.2.1 'a' (by decide),
    (C7_sanitize (str "a b")).2.2.2.1 'b' (by decide),
    (C7_sanitize []).2.2.2.2.2⟩

/-- C8: the token estimator returns a non-negative integer for every string,
returns 0 for the empty string, and is monotone under concatenation with a
space-separated continuation. -/
theorem C8_count_tokens :
    count_tokens [] = 0 ∧
    (∀ s : Str, 0 ≤ count_tokens s) ∧
    (∀ a b : Str, count_tokens a ≤ count_tokens (a ++ ' ' :: b)) := by
  refine ⟨rfl, fun s => Nat.zero_le _, fun a b => ?_⟩
  rw [count_tokens_append_space]
  omega

/-- C9 (counterexample): the claim as stated is false when a summary itself
contains the marker text: merging the single summary "Table of Contents"
yields a document containing that substring. -/
theorem C9_counterexample :
    countOccur (str "Table of Contents")
      (merge_summaries [str "Table of Contents"] (str "T") (str "D")) ≠ 0 := by
  decide

/-- C9 (amended): provided the summaries, title and date do not themselves
contain the marker strings, `merge_summaries` of a single summary emits no
"Table of Contents" and no "## Part " header, placing the summary directly
beneath the metadata lines; with N ≥ 2 summaries the document is the header
followed by a table-of-contents section listing exactly one entry per
summary, numbered 1..N, followed by the body, and for N = 2 exactly two
"## Part " headers and exactly one "Table of Contents" occur. -/
theorem C9_merge_format :
    (∀ s t d : Str,
      merge_summaries [s] t d = mergeHeader t d 1 ++ (s ++ str "\n\n")) ∧
    (∀ s t d : Str, countOccur (str "Table of Contents") s = 0 →
      countOccur (str "Table of Contents") t = 0 →
      countOccur (str "Table of Contents") d = 0 →
      countOccur (str "Table of Contents") (merge_summaries [s] t d) = 0) ∧
    (∀ s t d : Str, countOccur (str "## Part ") s = 0 →
      countOccur (str "## Part ") t = 0 →
      countOccur (str "## Part ") d = 0 →
      countOccur (str "## Part ") (merge_summaries [s] t d) = 0) ∧
    (∀ (ss : List Str) (t d : Str), 2 ≤ ss.length →
      merge_summaries ss t d =
        mergeHeader t d ss.length ++
          (tocSection ss.length ++ mergeBody ss.length 1 ss) ∧
      (tocLines ss.length).length = ss.length) ∧
    (∀ s1 s2 t d : Str, countOccur (str "## Part ") s1 = 0 →
      countOccur (str "## Part ") s2 = 0 →
      countOccur (str "## Part ") t = 0 →
      countOccur (str "## Part ") d = 0 →
      countOccur (str "## Part ") (merge_summaries [s1, s2] t d) = 2) ∧
    (∀ s1 s2 t d : Str, countOccur (str "Table of Contents") s1 = 0 →
      countOccur (str "Table of Contents") s2 = 0 →
      countOccur (str "Table of Contents") t = 0 →
      countOccur (str "Table of Contents") d = 0 →
      countOccur (str "Table of Contents") (merge_summaries [s1, s2] t d) = 1) := by
  refine ⟨merge_one_simple, ?_, ?_, ?_, ?_, ?_⟩
  · intro s t d hs ht hd
    exact countOccur_merge_one_generic (str "Table of Contents") s t d
      (by decide) hs ht hd (by decide) (by decide) (by decide) (by decide)
      (by decide) (by decide) (by decide) (by decide) (by decide) (by decide)
      (by decide)
  · intro s t d hs ht hd
    exact countOccur_merge_one_generic (str "## Part ") s t d
      (by decide) hs ht hd (by decide) (by decide) (by decide) (by decide)
      (by decide) (by decide) (by decide) (by decide) (by decide) (by decide)
      (by decide)
  · intro ss t d h
    exact ⟨merge_many_structure ss t d h, tocLines_length ss.length⟩
  · intro s1 s2 t d h1 h2 ht hd
    rw [countOccur_merge_two_generic (str "## Part ") s1 s2 t d (by decide)
      h1 h2 ht hd (by decide) (by decide) (by decide) (by decide) (by decide)
      (by decide) (by decide) (by decide) (by decide) (by decide) (by decide)
      (by decide)]
    decide
  · intro s1 s2 t d h1 h2 ht hd
    rw [countOccur_merge_two_generic (str "Table of Contents") s1 s2 t d
      (by decide) h1 h2 ht hd (by decide) (by decide) (by decide) (by decide)
      (by decide) (by decide) (by decide) (by decide) (by decide) (by decide)
      (by decide) (by decide)]
    decide

/-- C9 (witness): the amended statement at concrete inputs. -/
theorem C9_merge_format_witness :
    countOccur (str "Table of Contents")
      (merge_summaries [str "alpha"] (str "Video") (str "2024-01-01")) = 0 ∧
    countOccur (str "## Part ")
      (merge_summaries [str "alpha", str "beta"] (str "Video")
        (str "2024-01-01")) = 2 ∧
    countOccur (str "Table of Contents")
      (merge_summaries [str "alpha", str "beta"] (str "Video")
        (str "2024-01-01")) = 1 := by
  have h := C9_merge_format
  refine ⟨h.2.1 _ _ _ (by decide) (by decide) (by decide),
    h.2.2.2.2.1 _ _ _ _ (by decide) (by decide) (by decide) (by decide),
    h.2.2.2.2.2 _ _ _ _ (by decide) (by decide) (by decide) (by decide)⟩

/-- C10: when the prefer-manual flag is false, the selector's first tier
never returns a track (for any configuration and track list), and
consequently a track list containing only a manual track in the priority
language makes `get_subtitles` raise the terminal `TranscriptError` even
though a matching transcript is available. -/
theorem C10_prefer_manual_off (cfg : ProcSettings) (tracks : List Track)
    (h : cfg.prefer_manual_transcripts = false) :
    tierA cfg tracks = none ∧
    get_subtitles ⟨[str "en"], false⟩
      (.ok [⟨str "en", false, some [str "manual text"]⟩]) =
      .error ⟨str "No suitable subtitles found"⟩ :=
  ⟨tierA_none_of_not_prefer cfg tracks h, rfl⟩

/-- C10 (witness): the statement at a concrete configuration. -/
theorem C10_prefer_manual_off_witness :
    tierA ⟨[str "en"], false⟩ [⟨str "en", false, some [str "manual text"]⟩] =
      none ∧
    get_subtitles ⟨[str "en"], false⟩
      (.ok [⟨str "en", false, some [str "manual text"]⟩]) =
      .error ⟨str "No suitable subtitles found"⟩ :=
  C10_prefer_manual_off ⟨[str "en"], false⟩
    [⟨str "en", false, some [str "manual text"]⟩] rfl
